import Mathlib

set_option maxRecDepth 20000
set_option exponentiation.threshold 1100

/-!
Verification of the salary-normalization core of the `openclaw` repository.

The development shallowly embeds the Python sources
`salary-crawler/src/zhaopin_salary/salary.py`,
`salary-crawler/src/zhaopin_salary/cleaning.py`,
`salary-crawler/src/zhaopin_salary/pipelines.py` and
`zhaopin-scraper/scraper/parser.py` into Lean.

Modelling conventions:
* Python strings are Lean `String` / `List Char`; `None` inputs are `Option`.
* Python `float` arithmetic is modelled exactly over fractions (`PRat`).
  Decimal literals captured by the regexes are read exactly; `round` is
  modelled as round-half-to-even (Python 3 `round`), `int(...)` as
  truncation toward zero.
* The regular-expression searches of the source are hand-compiled into
  deterministic scanners.  For the concrete patterns in the source, Python's
  leftmost search with greedy quantifiers is equivalent to trying each start
  position from the left and matching greedily (the character classes of
  adjacent pattern elements are disjoint, so backtracking never changes the
  outcome except in the `\d{1,2}` bonus-months quantifier, which is treated
  explicitly).
* Whitespace (`\s`, `str.strip`, `str.split`) is modelled by the ASCII
  whitespace characters; `str.lower` by ASCII lower-casing.  Python's `\d`
  is modelled by ASCII digits.
* Calls that can raise (`float(...)` and `int(...)` on captured text, and
  `int(round(...))`/`int(...)` applied to an infinite float) are modelled in
  `Except`-valued variants of the parsers.  Overflow of `float()` on a long
  decimal literal to `+inf` is modelled exactly at the decimal-to-double
  conversion threshold `2^1024 - 2^970`; finite values are then carried
  exactly (no settled claim depends on sub-ulp rounding of finite doubles,
  nor on float-arithmetic overflow of intermediate products, which the
  model does not track).  The pure variants use total conversions; a
  soundness theorem states that every exception-free run of the faithful
  parser agrees with the total embedding.
-/

namespace OpenClaw

/-- ASCII whitespace, the model of Python's whitespace class. -/
def isWS (c : Char) : Bool :=
  c = ' ' || c = '\t' || c = '\n' || c = '\r' || c = '\x0b' || c = '\x0c'

/-- Negation of `isWS`, the token characters of `str.split`. -/
def notWS (c : Char) : Bool := !isWS c

/-- Python `str.strip()`: drop leading and trailing whitespace. -/
def pystrip (l : List Char) : List Char :=
  ((l.dropWhile isWS).reverse.dropWhile isWS).reverse

/-- Value of a (possibly empty) ASCII digit string, most significant first. -/
def digitsToNat (l : List Char) : Nat :=
  l.foldl (fun acc c => 10 * acc + (c.toNat - 48)) 0

/-- Exact fractions with a positive denominator, not necessarily reduced.
Python's float arithmetic in the parsers is modelled exactly over these
(every operation the source performs is exact at the inputs the claims are
settled on).  `Rat` is avoided because its normalisation runs `Nat.gcd`,
which the kernel cannot evaluate. -/
structure PRat where
  num : ℤ
  den : ℤ
  dpos : 0 < den

/-- The rational a `PRat` denotes. -/
def PRat.val (q : PRat) : ℚ := (q.num : ℚ) / (q.den : ℚ)

/-- Embed a natural number. -/
def PRat.ofNat (n : ℕ) : PRat := ⟨n, 1, one_pos⟩

/-- Multiply by a natural number. -/
def PRat.mulNat (q : PRat) (n : ℕ) : PRat := ⟨q.num * n, q.den, q.dpos⟩

/-- Divide by a positive natural number. -/
def PRat.divNat (q : PRat) (n : ℕ) (h : 0 < n) : PRat :=
  ⟨q.num, q.den * n, mul_pos q.dpos (by exact_mod_cast h)⟩

/-- Multiply two fractions. -/
def PRat.mul (q r : PRat) : PRat :=
  ⟨q.num * r.num, q.den * r.den, mul_pos q.dpos r.dpos⟩

/-- `q ≤ 0` (the denominator is positive). -/
def PRat.nonpos (q : PRat) : Bool := q.num ≤ 0

/-- Floor of the denoted rational. -/
def PRat.floor (q : PRat) : ℤ := q.num.fdiv q.den

/-- Python 3 `round` (round half to even) of the denoted rational: with
`f = ⌊q⌋` the fractional part `q - f` is compared against `1/2` by
cross-multiplication with the positive denominator. -/
def pyRound (q : PRat) : ℤ :=
  let f := q.floor
  let t := 2 * (q.num - f * q.den)
  if t < q.den then f
  else if q.den < t then f + 1
  else if f % 2 = 0 then f else f + 1

/-- Python `int(x)` (truncation toward zero) of the denoted rational. -/
def pyTrunc (q : PRat) : ℤ := q.num.tdiv q.den

/-- Exact value of a capture of the regex number `\d+(\.\d+)?`:
integer part, then an optional fractional digit run after a dot. -/
def numValue (l : List Char) : PRat :=
  let a := l.takeWhile Char.isDigit
  let r := l.dropWhile Char.isDigit
  match r with
  | '.' :: r' =>
      let b := r'.takeWhile Char.isDigit
      ⟨digitsToNat a * 10 ^ b.length + digitsToNat b, 10 ^ b.length,
        pow_pos (by norm_num) _⟩
  | _ => PRat.ofNat (digitsToNat a)

/-- Numeric-literal reader underlying the model of Python `float(s)`,
restricted to the strings producible by the source regexes' number
captures (drawn from `[\d.]+`): digits with at most one dot and at least
one digit give the exact decimal value; anything else is an invalid
literal (`ValueError`), i.e. `none`.  Overflow of the conversion to `+inf`
is classified on top of this by `pyFloatOv`. -/
def pyFloatCore (l : List Char) : Option PRat :=
  let a := l.takeWhile Char.isDigit
  let r := l.dropWhile Char.isDigit
  match r with
  | [] => if a.isEmpty then none else some (PRat.ofNat (digitsToNat a))
  | '.' :: r' =>
      let b := r'.takeWhile Char.isDigit
      if (r'.dropWhile Char.isDigit).isEmpty then
        if a.isEmpty && b.isEmpty then none
        else some ⟨digitsToNat a * 10 ^ b.length + digitsToNat b, 10 ^ b.length,
          pow_pos (by norm_num) _⟩
      else none
  | _ => none

/-- Overflow of decimal-to-double conversion: a non-negative decimal value
converts to `+inf` exactly when it is at least `2^1024 - 2^970`.  (The
largest finite double is `2^1024 - 2^971`; the midpoint above it,
`2^1024 - 2^970`, rounds up to the even candidate `2^1024` under
round-to-nearest-even, i.e. overflows, and so does everything above it.) -/
def floatOverflows (q : PRat) : Bool := ((2 ^ 1024 - 2 ^ 970 : ℕ) : ℤ) * q.den ≤ q.num

/-- A value produced by Python `float()` on a numeric capture: `+inf` on
overflow, otherwise a finite double carried by its exact decimal value. -/
inductive PyFloat where
  | inf : PyFloat
  | fin : PRat → PyFloat

/-- Python `float()` on a capture: `none` models `ValueError` on an
ill-formed literal; otherwise the value, overflowing to `+inf` at and
above the conversion threshold (so `float` of 400 nines is `inf`). -/
def pyFloatOv (l : List Char) : Option PyFloat :=
  match pyFloatCore l with
  | none => none
  | some q => some (if floatOverflows q then PyFloat.inf else PyFloat.fin q)

/-! ### Hand-compiled scanners for the regexes of `zhaopin_salary/salary.py` -/

/-- Consume `\s*`. -/
def skipWS (l : List Char) : List Char := l.dropWhile isWS

/-- The unit class `[kK千万元]` of `RANGE_PATTERN`/`SINGLE_PATTERN`. -/
def isUnitChar (c : Char) : Bool :=
  c = 'k' || c = 'K' || c = '千' || c = '万' || c = '元'

/-- The separator class `[-~至]`. -/
def isSepChar (c : Char) : Bool := c = '-' || c = '~' || c = '至'

/-- Match `\d+(?:\.\d+)?` at the head: returns the capture and the rest. -/
def matchNumber (l : List Char) : Option (List Char × List Char) :=
  let a := l.takeWhile Char.isDigit
  let r := l.dropWhile Char.isDigit
  if a.isEmpty then none
  else
    match r with
    | '.' :: r' =>
        let b := r'.takeWhile Char.isDigit
        if b.isEmpty then some (a, r)
        else some (a ++ '.' :: b, r'.dropWhile Char.isDigit)
    | _ => some (a, r)

/-- Match an optional single character of class `p` (greedy). -/
def matchOptClass (p : Char → Bool) (l : List Char) : Option Char × List Char :=
  match l with
  | c :: t => if p c then (some c, t) else (none, c :: t)
  | [] => (none, [])

/-- Match the optional period alternation `月|年|天|小时`. -/
def matchPeriod (l : List Char) : Option String :=
  match l with
  | '月' :: _ => some "月"
  | '年' :: _ => some "年"
  | '天' :: _ => some "天"
  | '小' :: '时' :: _ => some "小时"
  | _ => none

/-- Consume the optional `(?:/|每)?`. -/
def matchOptSlash (l : List Char) : List Char :=
  match l with
  | c :: t => if c = '/' || c = '每' then t else c :: t
  | [] => []

/-- Captures of `RANGE_PATTERN`. -/
structure RangeCaps where
  low : List Char
  unitLow : Option Char
  high : List Char
  unitHigh : Option Char
  period : Option String
deriving Repr, DecidableEq

/-- Match `RANGE_PATTERN` anchored at the head of `l`. -/
def matchRangeAt (l : List Char) : Option RangeCaps :=
  match matchNumber l with
  | none => none
  | some (low, r1) =>
    let (uLow, r3) := matchOptClass isUnitChar (skipWS r1)
    match skipWS r3 with
    | [] => none
    | c :: r5 =>
      if isSepChar c then
        match matchNumber (skipWS r5) with
        | none => none
        | some (high, r7) =>
          let (uHigh, r9) := matchOptClass isUnitChar (skipWS r7)
          some ⟨low, uLow, high, uHigh, matchPeriod (skipWS (matchOptSlash (skipWS r9)))⟩
      else none

/-- `RANGE_PATTERN.search`: leftmost start position. -/
def searchRange : List Char → Option RangeCaps
  | [] => none
  | c :: t =>
    match matchRangeAt (c :: t) with
    | some caps => some caps
    | none => searchRange t

/-- Captures of `SINGLE_PATTERN`. -/
structure SingleCaps where
  value : List Char
  unit : Option Char
  period : Option String
deriving Repr, DecidableEq

/-- Match `SINGLE_PATTERN` anchored at the head of `l`. -/
def matchSingleAt (l : List Char) : Option SingleCaps :=
  match matchNumber l with
  | none => none
  | some (v, r1) =>
    let (u, r3) := matchOptClass isUnitChar (skipWS r1)
    some ⟨v, u, matchPeriod (skipWS (matchOptSlash (skipWS r3)))⟩

/-- `SINGLE_PATTERN.search`: leftmost start position. -/
def searchSingle : List Char → Option SingleCaps
  | [] => none
  | c :: t =>
    match matchSingleAt (c :: t) with
    | some caps => some caps
    | none => searchSingle t

/-- The optional prefix class `[·\.\s]` of `MONTHS_PATTERN`. -/
def isMonthsPrefixChar (c : Char) : Bool := c = '·' || c = '.' || isWS c

/-- Match `(?P<months>\d{1,2})\s*薪` at the head of `l`, returning the digit
capture.  The greedy `\d{1,2}` takes two digits when it can; when two digits
are followed by anything but `\s*薪` the one-digit retry also fails (the
next character is then a digit, never `薪`), matching Python's backtracking. -/
def matchMonthsDigits (l : List Char) : Option (List Char) :=
  match l with
  | c1 :: rest =>
    if c1.isDigit then
      match rest with
      | c2 :: rest2 =>
        if c2.isDigit then
          match skipWS rest2 with
          | '薪' :: _ => some [c1, c2]
          | _ => none
        else
          match skipWS (c2 :: rest2) with
          | '薪' :: _ => some [c1]
          | _ => none
      | [] => none
    else none
  | [] => none

/-- Match `MONTHS_PATTERN` anchored at the head of `l` (with its optional
one-character prefix). -/
def matchMonthsAt (l : List Char) : Option (List Char) :=
  match l with
  | c :: t => if isMonthsPrefixChar c then matchMonthsDigits t else matchMonthsDigits (c :: t)
  | [] => none

/-- `MONTHS_PATTERN.search`: leftmost start position. -/
def searchMonths : List Char → Option (List Char)
  | [] => none
  | c :: t =>
    match matchMonthsAt (c :: t) with
    | some ds => some ds
    | none => searchMonths t

/-! ### `zhaopin_salary/salary.py` -/

/-- `SalaryParseResult` of `zhaopin_salary/models.py`. -/
structure SalaryParseResult where
  raw : String
  salary_min : Option ℤ
  salary_max : Option ℤ
  salary_period : Option String
  salary_months : Option ℕ
  salary_parsed : Bool
deriving Repr, DecidableEq

/-- `SALARY_NEGOTIABLE_KEYWORDS`. -/
def negotiableKeywords : List (List Char) :=
  ["面议".data, "薪资面议".data, "保密".data, "待定".data]

/-- `any(keyword in raw for keyword in SALARY_NEGOTIABLE_KEYWORDS)`. -/
def containsNegotiable (l : List Char) : Bool :=
  negotiableKeywords.any (fun k => decide (k <:+: l))

/-- `_extract_salary_months`. -/
def extractSalaryMonths (l : List Char) : ℕ :=
  match searchMonths l with
  | none => 12
  | some ds =>
    let m := digitsToNat ds
    if 1 ≤ m ∧ m ≤ 24 then m else 12

/-- `_unit_multiplier` (the unit group capture is empty or one character;
the multipliers are integer-valued floats). -/
def unitMultiplier (u : Option Char) : ℕ :=
  match u with
  | none => 1
  | some c =>
    let c' := c.toLower
    if c' = 'k' || c' = '千' then 1000
    else if c' = '万' then 10000
    else 1

/-- `_normalize_period`. -/
def normalizePeriod (p : Option String) : String :=
  if p = some "年" then "yearly"
  else if p = some "月" || p = none then "monthly"
  else if p = some "天" then "daily"
  else if p = some "小时" then "hourly"
  else "monthly"

/-- `_to_monthly_int` on a finite value (`21.75 = 87/4` exactly).  The
infinite-argument case, in which the source reaches `int(round(monthly))`
and raises `OverflowError`, is `toMonthlyIntE`. -/
def toMonthlyInt (value : PRat) (u : Option Char) (p : Option String) : Option ℤ :=
  let a := value.mulNat (unitMultiplier u)
  if a.nonpos then none
  else
    let monthly : PRat :=
      if p = none || p = some "月" then a
      else if p = some "年" then a.divNat 12 (by norm_num)
      else if p = some "天" then a.mul ⟨87, 4, by norm_num⟩
      else if p = some "小时" then a.mulNat 174
      else a
    some (pyRound monthly)

/-- The defensive swap of `parse_salary`: reorder the two bounds when both
are present and out of order. -/
def orderPair (a b : Option ℤ) : Option ℤ × Option ℤ :=
  match a, b with
  | some x, some y => if y < x then (some y, some x) else (some x, some y)
  | x, y => (x, y)

/-- Resolution of the range unit: `unit_high or unit_low or ""`. -/
def rangeUnit (caps : RangeCaps) : Option Char :=
  match caps.unitHigh with
  | some c => some c
  | none => caps.unitLow

/-- The `RANGE_PATTERN` branch of `parse_salary`, given the two numeric
values (shared between the pure and the exception-aware embedding). -/
def rangeResult (raw : List Char) (caps : RangeCaps) (low high : PRat) (months : ℕ) :
    SalaryParseResult :=
  let smin := toMonthlyInt low (rangeUnit caps) caps.period
  let smax := toMonthlyInt high (rangeUnit caps) caps.period
  let p := orderPair smin smax
  ⟨String.mk raw, p.1, p.2, some (normalizePeriod caps.period), some months,
    p.1.isSome && p.2.isSome⟩

/-- The `SINGLE_PATTERN` branch of `parse_salary`. -/
def singleResult (raw : List Char) (caps : SingleCaps) (value : PRat) (months : ℕ) :
    SalaryParseResult :=
  let monthly := toMonthlyInt value caps.unit caps.period
  ⟨String.mk raw, monthly, monthly, some (normalizePeriod caps.period), some months,
    monthly.isSome⟩

/-- Body of `parse_salary` after the input has been stripped. -/
def parseCore (raw : List Char) : SalaryParseResult :=
  if raw.isEmpty then ⟨"", none, none, none, none, false⟩
  else if containsNegotiable raw then
    ⟨String.mk raw, none, none, none, some (extractSalaryMonths raw), false⟩
  else
    let months := extractSalaryMonths raw
    match searchRange raw with
    | some caps => rangeResult raw caps (numValue caps.low) (numValue caps.high) months
    | none =>
      match searchSingle raw with
      | some caps => singleResult raw caps (numValue caps.value) months
      | none => ⟨String.mk raw, none, none, none, some months, false⟩

/-- `parse_salary` of `zhaopin_salary/salary.py` (total embedding). -/
def parse_salary (salary_raw : Option String) : SalaryParseResult :=
  parseCore (pystrip (salary_raw.getD "").data)

/-! ### Exception-aware embedding of `parse_salary`

Every conversion that can raise in Python — `float` on a capture
(`ValueError`), `int` on a capture (`ValueError`), and `int(round(...))`
on an infinite float (`OverflowError`) — is threaded through
`Except Unit`; an `Except.error` value marks a raised exception. -/

/-- `float(capture)`, exception-aware: `ValueError` on ill-formed text,
otherwise the (possibly infinite) float value. -/
def pyFloatE (cap : List Char) : Except Unit PyFloat :=
  match pyFloatOv cap with
  | some v => Except.ok v
  | none => Except.error ()

/-- `_to_monthly_int`, exception-aware.  On `+inf` the source's guard
`absolute_value <= 0` is false, every period branch keeps the value
infinite (`inf * m = inf`, `inf / 12 = inf`), and `int(round(inf))`
raises `OverflowError`. -/
def toMonthlyIntE (value : PyFloat) (u : Option Char) (p : Option String) :
    Except Unit (Option ℤ) :=
  match value with
  | PyFloat.inf => Except.error ()
  | PyFloat.fin q => Except.ok (toMonthlyInt q u p)

/-- `int(capture)`, exception-aware: succeeds on nonempty digit strings. -/
def pyIntE (cap : List Char) : Except Unit ℕ :=
  if !cap.isEmpty && cap.all Char.isDigit then Except.ok (digitsToNat cap) else Except.error ()

/-- `_extract_salary_months`, exception-aware. -/
def extractSalaryMonthsE (l : List Char) : Except Unit ℕ :=
  match searchMonths l with
  | none => Except.ok 12
  | some ds =>
    match pyIntE ds with
    | Except.error e => Except.error e
    | Except.ok m => Except.ok (if 1 ≤ m ∧ m ≤ 24 then m else 12)

/-- Body of the exception-aware `parse_salary` after stripping. -/
def parseCoreE (raw : List Char) : Except Unit SalaryParseResult :=
  if raw.isEmpty then Except.ok ⟨"", none, none, none, none, false⟩
  else if containsNegotiable raw then
    match extractSalaryMonthsE raw with
    | Except.error e => Except.error e
    | Except.ok m => Except.ok ⟨String.mk raw, none, none, none, some m, false⟩
  else
    match extractSalaryMonthsE raw with
    | Except.error e => Except.error e
    | Except.ok months =>
      match searchRange raw with
      | some caps =>
        match pyFloatE caps.low with
        | Except.error e => Except.error e
        | Except.ok low =>
          match pyFloatE caps.high with
          | Except.error e => Except.error e
          | Except.ok high =>
            match toMonthlyIntE low (rangeUnit caps) caps.period with
            | Except.error e => Except.error e
            | Except.ok smin =>
              match toMonthlyIntE high (rangeUnit caps) caps.period with
              | Except.error e => Except.error e
              | Except.ok smax =>
                Except.ok ⟨String.mk raw, (orderPair smin smax).1, (orderPair smin smax).2,
                  some (normalizePeriod caps.period), some months,
                  (orderPair smin smax).1.isSome && (orderPair smin smax).2.isSome⟩
      | none =>
        match searchSingle raw with
        | some caps =>
          match pyFloatE caps.value with
          | Except.error e => Except.error e
          | Except.ok v =>
            match toMonthlyIntE v caps.unit caps.period with
            | Except.error e => Except.error e
            | Except.ok monthly =>
              Except.ok ⟨String.mk raw, monthly, monthly,
                some (normalizePeriod caps.period), some months, monthly.isSome⟩
        | none => Except.ok ⟨String.mk raw, none, none, none, some months, false⟩

/-- `parse_salary`, exception-aware. -/
def parse_salaryE (salary_raw : Option String) : Except Unit SalaryParseResult :=
  parseCoreE (pystrip (salary_raw.getD "").data)

/-! ### `zhaopin-scraper/scraper/parser.py`, the second salary parser -/

instance {ε α : Type} [DecidableEq ε] [DecidableEq α] : DecidableEq (Except ε α) :=
  fun a b =>
    match a, b with
    | Except.error e, Except.error f =>
      match decEq e f with
      | isTrue h => isTrue (h ▸ rfl)
      | isFalse h => isFalse (fun hh => h (Except.error.inj hh))
    | Except.ok x, Except.ok y =>
      match decEq x y with
      | isTrue h => isTrue (h ▸ rfl)
      | isFalse h => isFalse (fun hh => h (Except.ok.inj hh))
    | Except.error _, Except.ok _ => isFalse (fun hh => Except.noConfusion hh)
    | Except.ok _, Except.error _ => isFalse (fun hh => Except.noConfusion hh)

/-- The unit class `[kK千万]` of `_SALARY_PAT` (note: no `元`). -/
def isScraperUnitChar (c : Char) : Bool := c = 'k' || c = 'K' || c = '千' || c = '万'

/-- The number class `[\d.]` of `_SALARY_PAT`. -/
def isNumDotChar (c : Char) : Bool := c.isDigit || c = '.'

/-- Captures of `_SALARY_PAT`. -/
structure ScraperCaps where
  low : List Char
  lowUnit : Option Char
  high : List Char
  highUnit : Option Char
deriving Repr, DecidableEq

/-- Match `_SALARY_PAT` anchored at the head of `l`. -/
def matchScraperRangeAt (l : List Char) : Option ScraperCaps :=
  let low := l.takeWhile isNumDotChar
  let r1 := l.dropWhile isNumDotChar
  if low.isEmpty then none
  else
    let (uLow, r3) := matchOptClass isScraperUnitChar (skipWS r1)
    match skipWS r3 with
    | [] => none
    | c :: r5 =>
      if isSepChar c then
        let high := (skipWS r5).takeWhile isNumDotChar
        let r7 := (skipWS r5).dropWhile isNumDotChar
        if high.isEmpty then none
        else
          let (uHigh, _) := matchOptClass isScraperUnitChar (skipWS r7)
          some ⟨low, uLow, high, uHigh⟩
      else none

/-- `_SALARY_PAT.search`: leftmost start position. -/
def searchScraperRange : List Char → Option ScraperCaps
  | [] => none
  | c :: t =>
    match matchScraperRangeAt (c :: t) with
    | some caps => some caps
    | none => searchScraperRange t

/-- Match `_MONTHS_PAT` (`(\d+)\s*薪`) anchored at the head of `l`. -/
def matchScraperMonthsAt (l : List Char) : Option (List Char) :=
  let ds := l.takeWhile Char.isDigit
  if ds.isEmpty then none
  else
    match skipWS (l.dropWhile Char.isDigit) with
    | '薪' :: _ => some ds
    | _ => none

/-- `_MONTHS_PAT.search`. -/
def searchScraperMonths : List Char → Option (List Char)
  | [] => none
  | c :: t =>
    match matchScraperMonthsAt (c :: t) with
    | some ds => some ds
    | none => searchScraperMonths t

/-- Match `_YEARLY_PAT` (`/\s*年`) anchored at the head of `l`. -/
def matchYearlyAt (l : List Char) : Bool :=
  match l with
  | '/' :: t =>
    match skipWS t with
    | '年' :: _ => true
    | _ => false
  | _ => false

/-- `_YEARLY_PAT.search` viewed as a Boolean. -/
def hasYearly : List Char → Bool
  | [] => false
  | c :: t => matchYearlyAt (c :: t) || hasYearly t

/-- The scraper's `_unit_multiplier` (no lower-casing in this copy). -/
def scraperUnitMultiplier (u : Option Char) : ℕ :=
  match u with
  | none => 1
  | some c =>
    if c = 'k' || c = 'K' || c = '千' then 1000
    else if c = '万' then 10000
    else 1

/-- Python's `a or b` on the two unit captures (empty capture is falsy). -/
def orFirst (a b : Option Char) : Option Char :=
  match a with
  | some c => some c
  | none => b

/-- `parse_salary` of `scraper/parser.py`, exception-aware
(`float` on a `[\d.]+` capture such as `"1..2"` raises). -/
def scraper_parse_salary (raw : String) : Except Unit (Option ℤ × Option ℤ × ℕ) :=
  let l := raw.data
  if l.isEmpty || decide ("面议".data <:+: l) then Except.ok (none, none, 12)
  else
    match searchScraperRange l with
    | none => Except.ok (none, none, 12)
    | some caps =>
      match pyFloatOv caps.low with
      | none => Except.error ()
      | some lowF =>
        match pyFloatOv caps.high with
        | none => Except.error ()
        | some highF =>
          match lowF, highF with
          | PyFloat.fin lowq, PyFloat.fin highq =>
            let low := lowq.mulNat (scraperUnitMultiplier (orFirst caps.lowUnit caps.highUnit))
            let high := highq.mulNat (scraperUnitMultiplier (orFirst caps.highUnit caps.lowUnit))
            let months : ℕ :=
              match searchScraperMonths l with
              | some ds => digitsToNat ds
              | none => 12
            if hasYearly l then
              Except.ok (some (pyTrunc (low.divNat 12 (by norm_num))),
                some (pyTrunc (high.divNat 12 (by norm_num))), months)
            else
              Except.ok (some (pyTrunc low), some (pyTrunc high), months)
          | _, _ =>
            -- an infinite side reaches `int(inf)`, which raises `OverflowError`
            Except.error ()

/-! ### `zhaopin_salary/cleaning.py`: the experience classifier -/

/-- Match `EXPERIENCE_RANGE_PATTERN` (`(\d+)\s*[-~至]\s*(\d+)\s*年`) anchored
at the head of `l`. -/
def matchExpRangeAt (l : List Char) : Option (ℕ × ℕ) :=
  let low := l.takeWhile Char.isDigit
  let r1 := l.dropWhile Char.isDigit
  if low.isEmpty then none
  else
    match skipWS r1 with
    | [] => none
    | c :: r2 =>
      if isSepChar c then
        let high := (skipWS r2).takeWhile Char.isDigit
        let r3 := (skipWS r2).dropWhile Char.isDigit
        if high.isEmpty then none
        else
          match skipWS r3 with
          | '年' :: _ => some (digitsToNat low, digitsToNat high)
          | _ => none
      else none

/-- `EXPERIENCE_RANGE_PATTERN.search`. -/
def searchExpRange : List Char → Option (ℕ × ℕ)
  | [] => none
  | c :: t =>
    match matchExpRangeAt (c :: t) with
    | some r => some r
    | none => searchExpRange t

/-- Match `EXPERIENCE_ABOVE_PATTERN` (`(\d+)\s*年以上`) anchored at the head. -/
def matchExpAboveAt (l : List Char) : Option ℕ :=
  let low := l.takeWhile Char.isDigit
  let r1 := l.dropWhile Char.isDigit
  if low.isEmpty then none
  else
    match skipWS r1 with
    | '年' :: '以' :: '上' :: _ => some (digitsToNat low)
    | _ => none

/-- `EXPERIENCE_ABOVE_PATTERN.search`. -/
def searchExpAbove : List Char → Option ℕ
  | [] => none
  | c :: t =>
    match matchExpAboveAt (c :: t) with
    | some r => some r
    | none => searchExpAbove t

/-- `parse_experience_bucket` of `zhaopin_salary/cleaning.py`. -/
def parse_experience_bucket (experience_req : Option String) : String :=
  match experience_req with
  | none => "unknown"
  | some s =>
    if s.data.isEmpty then "unknown"
    else
      let value := pystrip s.data
      if value.isEmpty then "unknown"
      else if decide ("不限".data <:+: value) || decide ("应届".data <:+: value) then "0-3年"
      else
        match searchExpRange value with
        | some lowHigh =>
          if lowHigh.2 ≤ 3 then "0-3年"
          else if 5 ≤ lowHigh.1 then "5年以上"
          else "3-5年"
        | none =>
          match searchExpAbove value with
          | some low =>
            if low ≤ 3 then "0-3年"
            else if low < 5 then "3-5年"
            else "5年以上"
          | none => "unknown"

/-! ### `zhaopin_salary/pipelines.py`: the identity-key builder -/

/-- ASCII lower-casing of one character, the model of `str.lower`. -/
def cLower (c : Char) : Char := c.toLower

/-- Lower-casing of a string. -/
def lowerL (l : List Char) : List Char := l.map cLower

/-- One step of `str.split()` from the right: the accumulator holds the
token currently being built and the finished tokens. -/
def pySplitStep (c : Char) (acc : List Char × List (List Char)) :
    List Char × List (List Char) :=
  if isWS c then ([], if acc.1.isEmpty then acc.2 else acc.1 :: acc.2)
  else (c :: acc.1, acc.2)

/-- Python `str.split()` with no arguments: maximal non-whitespace runs
(structural recursion so the kernel can evaluate it). -/
def pySplit (l : List Char) : List (List Char) :=
  let r := l.foldr pySplitStep ([], [])
  if r.1.isEmpty then r.2 else r.1 :: r.2

/-- `" ".join(words)`. -/
def joinSp : List (List Char) → List Char
  | [] => []
  | [w] => w
  | w :: x :: ws => w ++ ' ' :: joinSp (x :: ws)

/-- `_norm` of `zhaopin_salary/pipelines.py`:
`" ".join(str(value).strip().lower().split())`, with `None` mapped to `""`. -/
def pyNorm (v : Option String) : String :=
  match v with
  | none => ""
  | some s => String.mk (joinSp (pySplit (lowerL (pystrip s.data))))

/-- `build_dedup_key`: the three normalized identity fields joined by `"|"`. -/
def build_dedup_key (url company title : Option String) : String :=
  pyNorm url ++ "|" ++ pyNorm company ++ "|" ++ pyNorm title

/-! ### Spec-side reference definitions (written from the claims' wording,
to be compared against the embeddings above) -/

/-- The experience classification map exactly as the claim words it:
null/blank → unknown; text containing 不限 or 应届 → the 0-3 bucket;
a range `<low>-<high>年` → 0-3 iff `high ≤ 3`, else 5-plus iff `low ≥ 5`
(high tested first), else 3-5; `<low>年以上` → 0-3 iff `low ≤ 3`,
3-5 iff `3 < low < 5`, else 5-plus; otherwise unknown. -/
def expBucketSpec (experience_req : Option String) : String :=
  match experience_req with
  | none => "unknown"
  | some s =>
    let value := pystrip s.data
    if value.isEmpty then "unknown"
    else if decide ("不限".data <:+: value) || decide ("应届".data <:+: value) then "0-3年"
    else
      match searchExpRange value with
      | some lowHigh =>
        if lowHigh.2 ≤ 3 then "0-3年"
        else if 5 ≤ lowHigh.1 then "5年以上"
        else "3-5年"
      | none =>
        match searchExpAbove value with
        | some low =>
          if low ≤ 3 then "0-3年"
          else if 3 < low ∧ low < 5 then "3-5年"
          else "5年以上"
        | none => "unknown"

/-- Collapse every whitespace run to a single space, by a left-to-right scan
(a run contributes one `' '`, emitted at its last character). -/
def collapseRun : List Char → List Char
  | [] => []
  | [c] => if isWS c then [' '] else [c]
  | c :: d :: t =>
    if isWS c && isWS d then collapseRun (d :: t)
    else (if isWS c then ' ' else c) :: collapseRun (d :: t)

/-- Field normalization as the claim words it: trim leading/trailing
whitespace, lower-case, collapse internal whitespace runs to one space. -/
def specNormalize (s : String) : String :=
  String.mk (collapseRun (lowerL (pystrip s.data)))

/-! ## Theorems -/

/-- C9: the repository's two salary parsers are not extensionally equal.
On `"5千-1万"` only the high side carries `万`: the canonical parser applies
the high side's unit to both numbers (and swaps), giving bounds
`(10000, 50000)`, while the scraper parser resolves a unit per side and
gives `(5000, 10000)`.  On `"20-30万/年"` the canonical parser rounds
`200000/12` to `16667` while the scraper parser truncates to `16666`. -/
theorem claim_C9 :
    (parse_salary (some "5千-1万")).salary_min = some 10000 ∧
    (parse_salary (some "5千-1万")).salary_max = some 50000 ∧
    scraper_parse_salary "5千-1万" = Except.ok (some 5000, some 10000, 12) ∧
    (parse_salary (some "20-30万/年")).salary_min = some 16667 ∧
    scraper_parse_salary "20-30万/年" = Except.ok (some 16666, some 25000, 12) := by
  decide

/-- C10: the identity-key builder is not injective on already-normalized
fields: `("a|b","c","t")` and `("a","b|c","t")` are distinct triples of
`pyNorm`-fixed fields yet produce byte-equal keys. -/
theorem claim_C10 :
    build_dedup_key (some "a|b") (some "c") (some "t") =
      build_dedup_key (some "a") (some "b|c") (some "t") ∧
    (("a|b", "c", "t") : String × String × String) ≠ ("a", "b|c", "t") ∧
    pyNorm (some "a|b") = "a|b" ∧ pyNorm (some "b|c") = "b|c" ∧
    pyNorm (some "a") = "a" ∧ pyNorm (some "c") = "c" ∧ pyNorm (some "t") = "t" := by
  decide

/-- C2 counterexample: on input `"0.4"` the computed monthly amount rounds
to `0`, yet the parser reports `salary_parsed = true` with both bounds
present and equal to `0` — so `parsed` is not equivalent to "bounds present
and strictly positive", and a zero monthly amount does not force
`parsed = false`. -/
theorem claim_C2_cex :
    (parse_salary (some "0.4")).salary_parsed = true ∧
    (parse_salary (some "0.4")).salary_min = some 0 ∧
    (parse_salary (some "0.4")).salary_max = some 0 := by
  decide

/-- C3 counterexample: on null input (and on a negotiable input) the period
field of the result is absent (`none`), not the default `monthly`. -/
theorem claim_C3_cex :
    (parse_salary none).salary_period = none ∧
    (parse_salary (some "面议")).salary_period = none := by
  decide

/-- C4 counterexample: on null input (and on blank input) the bonus-months
field of the result is absent (`none`), not `12`. -/
theorem claim_C4_cex :
    (parse_salary none).salary_months = none ∧
    (parse_salary (some " ")).salary_months = none := by
  decide

/-- C5 counterexample: the scraper parser performs no swap, so on
`"3万-5千"` it returns both bounds present with minimum `30000` greater
than maximum `5000`. -/
theorem claim_C5_cex :
    scraper_parse_salary "3万-5千" = Except.ok (some 30000, some 5000, 12) ∧
    ¬((30000 : ℤ) ≤ 5000) := by
  decide

/-- Bounds returned by `orderPair` are ordered when both are present. -/
theorem orderPair_le {a b : Option ℤ} {x y : ℤ}
    (hx : (orderPair a b).1 = some x) (hy : (orderPair a b).2 = some y) : x ≤ y := by
  rcases a with _ | u <;> rcases b with _ | v <;>
    simp only [orderPair] at hx hy
  · cases hx
  · cases hx
  · cases hy
  · by_cases h : v < u
    · rw [if_pos h] at hx hy
      cases hx
      cases hy
      omega
    · rw [if_neg h] at hx hy
      cases hx
      cases hy
      omega

/-- Bounds of a `rangeResult` are ordered when both are present. -/
theorem rangeResult_min_le_max {raw : List Char} {caps : RangeCaps} {low high : PRat}
    {m : ℕ} {a b : ℤ}
    (ha : (rangeResult raw caps low high m).salary_min = some a)
    (hb : (rangeResult raw caps low high m).salary_max = some b) : a ≤ b := by
  unfold rangeResult at ha hb
  exact orderPair_le ha hb

/-- Bounds of a `singleResult` are ordered (they are equal). -/
theorem singleResult_min_le_max {raw : List Char} {caps : SingleCaps} {v : PRat}
    {m : ℕ} {a b : ℤ}
    (ha : (singleResult raw caps v m).salary_min = some a)
    (hb : (singleResult raw caps v m).salary_max = some b) : a ≤ b := by
  have h : (singleResult raw caps v m).salary_min = (singleResult raw caps v m).salary_max := rfl
  rw [ha, hb] at h
  cases h
  omega

/-- Bounds of `parseCore` are ordered when both are present. -/
theorem parseCore_min_le_max {raw : List Char} {a b : ℤ}
    (ha : (parseCore raw).salary_min = some a)
    (hb : (parseCore raw).salary_max = some b) : a ≤ b := by
  unfold parseCore at ha hb
  by_cases h1 : raw.isEmpty
  · rw [if_pos h1] at ha
    cases ha
  · rw [if_neg h1] at ha hb
    by_cases h2 : containsNegotiable raw
    · rw [if_pos h2] at ha
      cases ha
    · rw [if_neg h2] at ha hb
      rcases hR : searchRange raw with _ | caps
      · rw [hR] at ha hb
        rcases hS : searchSingle raw with _ | caps
        · rw [hS] at ha
          cases ha
        · rw [hS] at ha hb
          exact singleResult_min_le_max ha hb
      · rw [hR] at ha hb
        exact rangeResult_min_le_max ha hb

/-- C5 (amended): for the canonical parser `parse_salary` of
`zhaopin_salary/salary.py`, whenever both monthly bounds are present the
minimum is at most the maximum (the source swaps them when needed).  The
scraper parser of `scraper/parser.py` does not enforce this (see the
counterexample). -/
theorem claim_C5 (s : Option String) (a b : ℤ)
    (ha : (parse_salary s).salary_min = some a)
    (hb : (parse_salary s).salary_max = some b) : a ≤ b := by
  unfold parse_salary at ha hb
  exact parseCore_min_le_max ha hb

/-- C5 witness: the theorem applied at the concrete input `"8k-15k/月"`. -/
theorem claim_C5_witness : (8000 : ℤ) ≤ 15000 :=
  claim_C5 (some "8k-15k/月") 8000 15000 (by decide) (by decide)

/-- Case analysis principle for `parseCore`, following the five branches of
the source function. -/
theorem parseCore_elim (P : List Char → SalaryParseResult → Prop)
    (h0 : ∀ raw, raw.isEmpty = true → P raw ⟨"", none, none, none, none, false⟩)
    (h1 : ∀ raw, raw.isEmpty = false → containsNegotiable raw = true →
      P raw ⟨String.mk raw, none, none, none, some (extractSalaryMonths raw), false⟩)
    (h2 : ∀ raw caps, raw.isEmpty = false → containsNegotiable raw = false →
      searchRange raw = some caps →
      P raw (rangeResult raw caps (numValue caps.low) (numValue caps.high)
        (extractSalaryMonths raw)))
    (h3 : ∀ raw caps, raw.isEmpty = false → containsNegotiable raw = false →
      searchRange raw = none → searchSingle raw = some caps →
      P raw (singleResult raw caps (numValue caps.value) (extractSalaryMonths raw)))
    (h4 : ∀ raw, raw.isEmpty = false → containsNegotiable raw = false →
      searchRange raw = none → searchSingle raw = none →
      P raw ⟨String.mk raw, none, none, none, some (extractSalaryMonths raw), false⟩)
    (raw : List Char) : P raw (parseCore raw) := by
  unfold parseCore
  cases hE : raw.isEmpty
  · cases hN : containsNegotiable raw
    · rcases hR : searchRange raw with _ | caps
      · rcases hS : searchSingle raw with _ | caps
        · simp only [hE, hN, hR, hS, Bool.false_eq_true, if_false]
          exact h4 raw hE hN hR hS
        · simp only [hE, hN, hR, hS, Bool.false_eq_true, if_false]
          exact h3 raw caps hE hN hR hS
      · simp only [hE, hN, hR, Bool.false_eq_true, if_false]
        exact h2 raw caps hE hN hR
    · simp only [hE, hN, Bool.false_eq_true, if_false, if_true]
      exact h1 raw hE hN
  · simp only [hE, if_true]
    exact h0 raw hE

/-- Components of `orderPair` come from its inputs. -/
theorem orderPair_cases {a b : Option ℤ} {v : ℤ}
    (h : (orderPair a b).1 = some v ∨ (orderPair a b).2 = some v) :
    a = some v ∨ b = some v := by
  rcases a with _ | x <;> rcases b with _ | y <;>
    simp only [orderPair] at h
  · exact h
  · exact h
  · exact h
  · by_cases hlt : y < x
    · rw [if_pos hlt] at h
      tauto
    · rw [if_neg hlt] at h
      tauto

/-- Python 3 `round` of a fraction with non-negative numerator is
non-negative. -/
theorem pyRound_nonneg {q : PRat} (h : 0 ≤ q.num) : 0 ≤ pyRound q := by
  unfold pyRound PRat.floor
  have hf : 0 ≤ q.num.fdiv q.den := Int.fdiv_nonneg h (le_of_lt q.dpos)
  dsimp only
  split_ifs <;> omega

/-- A present result of `_to_monthly_int` is non-negative. -/
theorem toMonthlyInt_nonneg {q : PRat} {u : Option Char} {p : Option String} {v : ℤ}
    (h : toMonthlyInt q u p = some v) : 0 ≤ v := by
  unfold toMonthlyInt at h
  by_cases hn : (q.mulNat (unitMultiplier u)).nonpos
  · rw [if_pos hn] at h
    cases h
  · rw [if_neg hn] at h
    simp only [PRat.nonpos, PRat.mulNat, decide_eq_true_eq, not_le] at hn
    split_ifs at h with h1 h2 h3 h4 <;> cases h <;>
      apply pyRound_nonneg <;>
      simp only [PRat.mulNat, PRat.divNat, PRat.mul] <;> omega

/-- A non-positive unit-scaled amount yields an absent bound. -/
theorem toMonthlyInt_nonpos {q : PRat} {u : Option Char} {p : Option String}
    (h : (q.mulNat (unitMultiplier u)).nonpos = true) : toMonthlyInt q u p = none := by
  unfold toMonthlyInt
  rw [if_pos h]

/-- C2 (amended): for every input, `salary_parsed` is true exactly when both
monthly bounds are present; a present bound is always non-negative but may
be `0` after rounding (see the counterexample), and a non-positive
unit-scaled amount produces an absent bound in `_to_monthly_int`. -/
theorem claim_C2 (s : Option String) :
    (parse_salary s).salary_parsed =
      ((parse_salary s).salary_min.isSome && (parse_salary s).salary_max.isSome) ∧
    (∀ v : ℤ, (parse_salary s).salary_min = some v ∨
      (parse_salary s).salary_max = some v → 0 ≤ v) ∧
    (∀ (q : PRat) (u : Option Char) (p : Option String),
      (q.mulNat (unitMultiplier u)).nonpos = true → toMonthlyInt q u p = none) := by
  refine ⟨?_, ?_, fun q u p h => toMonthlyInt_nonpos h⟩ <;>
    unfold parse_salary
  · refine parseCore_elim
      (fun _ r => r.salary_parsed = (r.salary_min.isSome && r.salary_max.isSome))
      ?_ ?_ ?_ ?_ ?_ _
    · intro raw _
      rfl
    · intro raw _ _
      rfl
    · intro raw caps _ _ _
      rfl
    · intro raw caps _ _ _ _
      exact (Bool.and_self _).symm
    · intro raw _ _ _ _
      rfl
  · refine parseCore_elim
      (fun _ r => ∀ v : ℤ, r.salary_min = some v ∨ r.salary_max = some v → 0 ≤ v)
      ?_ ?_ ?_ ?_ ?_ _
    · intro raw _ v hv
      rcases hv with hv | hv <;> cases hv
    · intro raw _ _ v hv
      rcases hv with hv | hv <;> cases hv
    · intro raw caps _ _ _ v hv
      rcases orderPair_cases hv with h | h
      · exact toMonthlyInt_nonneg h
      · exact toMonthlyInt_nonneg h
    · intro raw caps _ _ _ _ v hv
      rcases hv with hv | hv <;> exact toMonthlyInt_nonneg hv
    · intro raw _ _ _ _ v hv
      rcases hv with hv | hv <;> cases hv

/-- C2 witness: the amended theorem applied at concrete inputs, discharging
its hypotheses (`some 8000` is a present bound of `"8k-15k/月"`, and `0`
scaled by the `万` multiplier is non-positive). -/
theorem claim_C2_witness :
    (0 : ℤ) ≤ 8000 ∧ toMonthlyInt (PRat.ofNat 0) (some '万') none = none :=
  ⟨(claim_C2 (some "8k-15k/月")).2.1 8000 (Or.inl (by decide)),
    (claim_C2 none).2.2 (PRat.ofNat 0) (some '万') none (by decide)⟩

/-- The four normalized period tokens are the only outputs of
`_normalize_period`. -/
theorem normalizePeriod_mem (p : Option String) :
    normalizePeriod p = "monthly" ∨ normalizePeriod p = "yearly" ∨
    normalizePeriod p = "daily" ∨ normalizePeriod p = "hourly" := by
  unfold normalizePeriod
  split_ifs <;> tauto

/-- C3 (amended): the period field is one of the four tokens `monthly`,
`yearly`, `daily`, `hourly` whenever a range or single-value pattern
matched (defaulting to `monthly` when no period token was captured), and it
is absent (`none`) exactly on empty, negotiable, or totally unparsable
input — not always set, as the original claim stated. -/
theorem claim_C3 (s : Option String) :
    ((parse_salary s).salary_period = none ∨
     (parse_salary s).salary_period = some "monthly" ∨
     (parse_salary s).salary_period = some "yearly" ∨
     (parse_salary s).salary_period = some "daily" ∨
     (parse_salary s).salary_period = some "hourly") ∧
    ((parse_salary s).salary_period = none ↔
      (pystrip ((s.getD "").data)).isEmpty = true ∨
      containsNegotiable (pystrip ((s.getD "").data)) = true ∨
      (searchRange (pystrip ((s.getD "").data)) = none ∧
       searchSingle (pystrip ((s.getD "").data)) = none)) := by
  unfold parse_salary
  constructor
  · refine parseCore_elim
      (fun _ r => r.salary_period = none ∨ r.salary_period = some "monthly" ∨
        r.salary_period = some "yearly" ∨ r.salary_period = some "daily" ∨
        r.salary_period = some "hourly") ?_ ?_ ?_ ?_ ?_ _
    · intro raw _
      exact Or.inl rfl
    · intro raw _ _
      exact Or.inl rfl
    · intro raw caps _ _ _
      rcases normalizePeriod_mem caps.period with h | h | h | h <;>
        rw [show (rangeResult raw caps (numValue caps.low) (numValue caps.high)
          (extractSalaryMonths raw)).salary_period = some (normalizePeriod caps.period)
          from rfl, h] <;> tauto
    · intro raw caps _ _ _ _
      rcases normalizePeriod_mem caps.period with h | h | h | h <;>
        rw [show (singleResult raw caps (numValue caps.value)
          (extractSalaryMonths raw)).salary_period = some (normalizePeriod caps.period)
          from rfl, h] <;> tauto
    · intro raw _ _ _ _
      exact Or.inl rfl
  · refine parseCore_elim
      (fun raw r => r.salary_period = none ↔
        raw.isEmpty = true ∨ containsNegotiable raw = true ∨
        (searchRange raw = none ∧ searchSingle raw = none)) ?_ ?_ ?_ ?_ ?_ _
    · intro raw hE
      simp [hE]
    · intro raw _ hN
      simp [hN]
    · intro raw caps hE hN hR
      rw [show (rangeResult raw caps (numValue caps.low) (numValue caps.high)
        (extractSalaryMonths raw)).salary_period = some (normalizePeriod caps.period)
        from rfl]
      simp [hE, hN, hR]
    · intro raw caps hE hN hR hS
      rw [show (singleResult raw caps (numValue caps.value)
        (extractSalaryMonths raw)).salary_period = some (normalizePeriod caps.period)
        from rfl]
      simp [hE, hN, hS]
    · intro raw hE hN hR hS
      simp [hE, hN, hR, hS]

/-- C3 witness: the iff of the amended theorem applied at a concrete
unparsable input. -/
theorem claim_C3_witness : (parse_salary (some "abc")).salary_period = none :=
  (claim_C3 (some "abc")).2.mpr (by decide)

/-- Full specification of `_extract_salary_months`: the result is in
`[1, 24]`, equals `12` when the pattern is absent, and equals the captured
two-digit value clamped back to `12` when out of `[1, 24]`. -/
theorem extractSalaryMonths_spec (l : List Char) :
    1 ≤ extractSalaryMonths l ∧ extractSalaryMonths l ≤ 24 ∧
    (searchMonths l = none → extractSalaryMonths l = 12) ∧
    (∀ ds, searchMonths l = some ds →
      extractSalaryMonths l =
        if 1 ≤ digitsToNat ds ∧ digitsToNat ds ≤ 24 then digitsToNat ds else 12) := by
  unfold extractSalaryMonths
  rcases h : searchMonths l with _ | ds <;> dsimp only
  · refine ⟨by norm_num, by norm_num, fun _ => rfl, fun ds hds => ?_⟩
    cases hds
  · refine ⟨?_, ?_, fun hn => ?_, fun ds' hds' => ?_⟩
    · by_cases hin : 1 ≤ digitsToNat ds ∧ digitsToNat ds ≤ 24
      · rw [if_pos hin]
        exact hin.1
      · rw [if_neg hin]
        norm_num
    · by_cases hin : 1 ≤ digitsToNat ds ∧ digitsToNat ds ≤ 24
      · rw [if_pos hin]
        exact hin.2
      · rw [if_neg hin]
        norm_num
    · cases hn
    · cases hds'
      rfl

/-- C4 (amended): when the trimmed input is nonempty, the bonus-months field
is present and lies in `[1, 24]`, equal to `12` when the `"<digits>薪"`
pattern is absent or its value is outside `[1, 24]`; when the input is null
or blank the field is absent (`none`), not `12` as the original claim
stated. -/
theorem claim_C4 (s : Option String) :
    ((pystrip ((s.getD "").data)).isEmpty = true →
      (parse_salary s).salary_months = none) ∧
    ((pystrip ((s.getD "").data)).isEmpty = false →
      ∃ m : ℕ, (parse_salary s).salary_months = some m ∧ 1 ≤ m ∧ m ≤ 24 ∧
        (searchMonths (pystrip ((s.getD "").data)) = none → m = 12) ∧
        (∀ ds, searchMonths (pystrip ((s.getD "").data)) = some ds →
          m = if 1 ≤ digitsToNat ds ∧ digitsToNat ds ≤ 24 then digitsToNat ds else 12)) := by
  unfold parse_salary
  refine parseCore_elim
    (fun raw r => (raw.isEmpty = true → r.salary_months = none) ∧
      (raw.isEmpty = false → ∃ m : ℕ, r.salary_months = some m ∧ 1 ≤ m ∧ m ≤ 24 ∧
        (searchMonths raw = none → m = 12) ∧
        (∀ ds, searchMonths raw = some ds →
          m = if 1 ≤ digitsToNat ds ∧ digitsToNat ds ≤ 24 then digitsToNat ds else 12)))
    ?_ ?_ ?_ ?_ ?_ _
  · intro raw hE
    refine ⟨fun _ => rfl, fun hE' => ?_⟩
    rw [hE] at hE'
    cases hE'
  · intro raw hE _
    refine ⟨fun hE' => ?_, fun _ => ⟨extractSalaryMonths raw, rfl,
      (extractSalaryMonths_spec raw).1, (extractSalaryMonths_spec raw).2.1,
      (extractSalaryMonths_spec raw).2.2.1, (extractSalaryMonths_spec raw).2.2.2⟩⟩
    rw [hE] at hE'
    cases hE'
  · intro raw caps hE _ _
    refine ⟨fun hE' => ?_, fun _ => ⟨extractSalaryMonths raw, rfl,
      (extractSalaryMonths_spec raw).1, (extractSalaryMonths_spec raw).2.1,
      (extractSalaryMonths_spec raw).2.2.1, (extractSalaryMonths_spec raw).2.2.2⟩⟩
    rw [hE] at hE'
    cases hE'
  · intro raw caps hE _ _ _
    refine ⟨fun hE' => ?_, fun _ => ⟨extractSalaryMonths raw, rfl,
      (extractSalaryMonths_spec raw).1, (extractSalaryMonths_spec raw).2.1,
      (extractSalaryMonths_spec raw).2.2.1, (extractSalaryMonths_spec raw).2.2.2⟩⟩
    rw [hE] at hE'
    cases hE'
  · intro raw hE _ _ _
    refine ⟨fun hE' => ?_, fun _ => ⟨extractSalaryMonths raw, rfl,
      (extractSalaryMonths_spec raw).1, (extractSalaryMonths_spec raw).2.1,
      (extractSalaryMonths_spec raw).2.2.1, (extractSalaryMonths_spec raw).2.2.2⟩⟩
    rw [hE] at hE'
    cases hE'

/-- C4 witness: the amended theorem applied at null input (blank branch) and
at `"面议"` (nonempty branch, pattern absent). -/
theorem claim_C4_witness :
    (parse_salary none).salary_months = none ∧
    (∃ m : ℕ, (parse_salary (some "面议")).salary_months = some m ∧ 1 ≤ m ∧ m ≤ 24 ∧
      (searchMonths (pystrip (((some "面议" : Option String).getD "").data)) = none → m = 12) ∧
      (∀ ds, searchMonths (pystrip (((some "面议" : Option String).getD "").data)) = some ds →
        m = if 1 ≤ digitsToNat ds ∧ digitsToNat ds ≤ 24 then digitsToNat ds else 12)) :=
  ⟨(claim_C4 none).1 (by decide), (claim_C4 (some "面议")).2 (by decide)⟩

/-- An infix whose characters are not whitespace survives `dropWhile isWS`. -/
theorem infix_dropWhile_ws {k : List Char} (l : List Char) (hne : k ≠ [])
    (hk : ∀ c ∈ k, isWS c = false) (h : k <:+: l) : k <:+: l.dropWhile isWS := by
  induction l with
  | nil =>
    rw [List.dropWhile_nil]
    exact h
  | cons c t ih =>
    by_cases hc : isWS c
    · rw [List.dropWhile_cons_of_pos hc]
      apply ih
      rcases List.infix_cons_iff.mp h with hpre | hinf
      · rcases k with _ | ⟨k0, k'⟩
        · exact absurd rfl hne
        · have h0 : k0 = c := (List.cons_prefix_cons.mp hpre).1
          have := hk k0 (List.mem_cons_self _ _)
          rw [h0, hc] at this
          cases this
      · exact hinf
    · rw [List.dropWhile_cons_of_neg hc]
      exact h

/-- An infix whose characters are not whitespace survives `str.strip()`. -/
theorem infix_pystrip {k : List Char} (l : List Char) (hne : k ≠ [])
    (hk : ∀ c ∈ k, isWS c = false) (h : k <:+: l) : k <:+: pystrip l := by
  unfold pystrip
  have h1 : k <:+: l.dropWhile isWS := infix_dropWhile_ws l hne hk h
  have h2 : k.reverse <:+: (l.dropWhile isWS).reverse := h1.reverse
  have hner : k.reverse ≠ [] := by
    intro hr
    exact hne (by simpa using congrArg List.reverse hr)
  have hkr : ∀ c ∈ k.reverse, isWS c = false := fun c hc => hk c (List.mem_reverse.mp hc)
  have h3 : k.reverse <:+: (l.dropWhile isWS).reverse.dropWhile isWS :=
    infix_dropWhile_ws _ hner hkr h2
  have h4 := h3.reverse
  rwa [List.reverse_reverse] at h4

/-- A negotiable keyword found in the raw text is still found after
stripping, and the stripped text is then nonempty. -/
theorem containsNegotiable_strip {l : List Char} (h : containsNegotiable l = true) :
    containsNegotiable (pystrip l) = true ∧ (pystrip l).isEmpty = false := by
  unfold containsNegotiable at h ⊢
  rw [List.any_eq_true] at h
  obtain ⟨k, hmem, hdec⟩ := h
  have hinf : k <:+: l := of_decide_eq_true hdec
  have hprops : ∀ k ∈ negotiableKeywords, k ≠ [] ∧ ∀ c ∈ k, isWS c = false := by decide
  obtain ⟨hne, hk⟩ := hprops k hmem
  have hstr : k <:+: pystrip l := infix_pystrip l hne hk hinf
  constructor
  · rw [List.any_eq_true]
    exact ⟨k, hmem, decide_eq_true hstr⟩
  · rcases hs : pystrip l with _ | _
    · rw [hs] at hstr
      exact absurd (List.eq_nil_of_infix_nil hstr) hne
    · rfl

/-- C6: any input containing a negotiable keyword parses to
`salary_parsed = false` with both bounds and the period absent, while bonus
months are still extracted from the same (stripped) string; in particular
`"面议·13薪"` yields 13 bonus months. -/
theorem claim_C6 :
    (∀ s : String, containsNegotiable s.data = true →
      parse_salary (some s) = ⟨String.mk (pystrip s.data), none, none, none,
        some (extractSalaryMonths (pystrip s.data)), false⟩) ∧
    (parse_salary (some "面议·13薪")).salary_months = some 13 := by
  constructor
  · intro s h
    obtain ⟨hneg, hne⟩ := containsNegotiable_strip h
    unfold parse_salary parseCore
    simp only [Option.getD_some, hne, hneg, Bool.false_eq_true, if_false, if_true]
  · decide

/-- C6 witness: the theorem applied at the concrete negotiable input
`"面议"`. -/
theorem claim_C6_witness :
    parse_salary (some "面议") = ⟨String.mk (pystrip "面议".data), none, none, none,
      some (extractSalaryMonths (pystrip "面议".data)), false⟩ :=
  claim_C6.1 "面议" (by decide)

/-- C7: the experience classifier realises exactly the claimed mapping:
null/blank → unknown; text containing 不限/应届 → 0-3; a range
`<low>-<high>年` → 0-3 iff `high ≤ 3`, else 5-plus iff `low ≥ 5` (high
tested first), else 3-5; `<low>年以上` → 0-3 iff `low ≤ 3`, 3-5 iff
`3 < low < 5`, else 5-plus; otherwise unknown. -/
theorem claim_C7 (e : Option String) : parse_experience_bucket e = expBucketSpec e := by
  rcases e with _ | s
  · rfl
  · unfold parse_experience_bucket expBucketSpec
    by_cases hd : s.data.isEmpty
    · have hnil : s.data = [] := by
        rcases h : s.data with _ | _
        · rfl
        · rw [h] at hd
          cases hd
      simp [hd, hnil, pystrip]
    · simp only [hd, Bool.false_eq_true, if_false]
      by_cases h1 : (pystrip s.data).isEmpty
      · simp [h1]
      · simp only [h1, Bool.false_eq_true, if_false]
        by_cases h2 : (decide ("不限".data <:+: pystrip s.data) ||
            decide ("应届".data <:+: pystrip s.data)) = true
        · simp [h2]
        · simp only [h2, Bool.false_eq_true, if_false]
          rcases hR : searchExpRange (pystrip s.data) with _ | lh
          · simp only [hR]
            rcases hA : searchExpAbove (pystrip s.data) with _ | low
            · simp [hA]
            · simp only [hA]
              by_cases h3 : low ≤ 3
              · simp [h3]
              · simp only [h3, if_false]
                by_cases h4 : low < 5
                · rw [if_pos h4, if_pos ⟨by omega, h4⟩]
                · rw [if_neg h4, if_neg (by omega : ¬(3 < low ∧ low < 5))]
          · simp [hR]

/-- Characters of a `takeWhile` output satisfy the predicate. -/
theorem all_takeWhile (p : Char → Bool) (l : List Char) :
    ∀ c ∈ l.takeWhile p, p c = true := by
  induction l with
  | nil =>
    intro c hc
    cases hc
  | cons x t ih =>
    intro c hc
    by_cases hx : p x
    · rw [List.takeWhile_cons_of_pos hx] at hc
      rcases hc with _ | hc
      · exact hx
      · exact ih c (by assumption)
    · rw [List.takeWhile_cons_of_neg hx] at hc
      cases hc

/-- `takeWhile` over a list all of whose characters satisfy `p`. -/
theorem takeWhile_all {p : Char → Bool} {l : List Char}
    (h : ∀ c ∈ l, p c = true) : l.takeWhile p = l := by
  induction l with
  | nil => rfl
  | cons x t ih =>
    rw [List.takeWhile_cons_of_pos (h x (List.mem_cons_self _ _))]
    rw [ih (fun c hc => h c (List.mem_cons_of_mem _ hc))]

/-- `dropWhile` over a list all of whose characters satisfy `p`. -/
theorem dropWhile_all {p : Char → Bool} {l : List Char}
    (h : ∀ c ∈ l, p c = true) : l.dropWhile p = [] := by
  induction l with
  | nil => rfl
  | cons x t ih =>
    rw [List.dropWhile_cons_of_pos (h x (List.mem_cons_self _ _))]
    exact ih (fun c hc => h c (List.mem_cons_of_mem _ hc))

/-- `takeWhile` of `a ++ x :: r` stops exactly at `x` when all of `a`
satisfies `p` and `x` does not. -/
theorem takeWhile_append_not {p : Char → Bool} {a : List Char} {x : Char}
    (r : List Char) (ha : ∀ c ∈ a, p c = true) (hx : p x = false) :
    (a ++ x :: r).takeWhile p = a := by
  induction a with
  | nil =>
    rw [List.nil_append, List.takeWhile_cons_of_neg (by rw [hx]; exact Bool.false_ne_true)]
  | cons y t ih =>
    rw [List.cons_append,
      List.takeWhile_cons_of_pos (ha y (List.mem_cons_self _ _)),
      ih (fun c hc => ha c (List.mem_cons_of_mem _ hc))]

/-- `dropWhile` of `a ++ x :: r` stops exactly at `x` when all of `a`
satisfies `p` and `x` does not. -/
theorem dropWhile_append_not {p : Char → Bool} {a : List Char} {x : Char}
    (r : List Char) (ha : ∀ c ∈ a, p c = true) (hx : p x = false) :
    (a ++ x :: r).dropWhile p = x :: r := by
  induction a with
  | nil =>
    rw [List.nil_append, List.dropWhile_cons_of_neg (by rw [hx]; exact Bool.false_ne_true)]
  | cons y t ih =>
    rw [List.cons_append,
      List.dropWhile_cons_of_pos (ha y (List.mem_cons_self _ _)),
      ih (fun c hc => ha c (List.mem_cons_of_mem _ hc))]

/-- A capture of `matchNumber` is a string Python's `float` accepts, and its
value is `numValue` of the capture. -/
theorem matchNumber_floatOk {l cap rest : List Char}
    (h : matchNumber l = some (cap, rest)) : pyFloatCore cap = some (numValue cap) := by
  have haD : ∀ c ∈ l.takeWhile Char.isDigit, Char.isDigit c = true :=
    all_takeWhile Char.isDigit l
  unfold matchNumber at h
  by_cases hA : (l.takeWhile Char.isDigit).isEmpty
  · rw [if_pos hA] at h
    cases h
  · rw [if_neg hA] at h
    split at h
    · rename_i r' heq
      by_cases hB : (r'.takeWhile Char.isDigit).isEmpty
      · rw [if_pos hB] at h
        cases h
        simp [pyFloatCore, numValue, takeWhile_all haD, dropWhile_all haD, hA]
      · rw [if_neg hB] at h
        cases h
        have hbD : ∀ c ∈ r'.takeWhile Char.isDigit, Char.isDigit c = true :=
          all_takeWhile Char.isDigit r'
        have hdot : Char.isDigit '.' = false := by decide
        simp [pyFloatCore, numValue, takeWhile_append_not _ haD hdot,
          dropWhile_append_not _ haD hdot, takeWhile_all hbD, dropWhile_all hbD, hA]
    · cases h
      simp [pyFloatCore, numValue, takeWhile_all haD, dropWhile_all haD, hA]

/-- Both captures of `matchRangeAt` are `float`-acceptable. -/
theorem matchRangeAt_floatOk {l : List Char} {caps : RangeCaps}
    (h : matchRangeAt l = some caps) :
    pyFloatCore caps.low = some (numValue caps.low) ∧
    pyFloatCore caps.high = some (numValue caps.high) := by
  unfold matchRangeAt at h
  split at h
  · cases h
  · rename_i low r1 h1
    split at h
    split at h
    · cases h
    · split at h
      · split at h
        · cases h
        · rename_i high r7 h2
          split at h
          cases h
          exact ⟨matchNumber_floatOk h1, matchNumber_floatOk h2⟩
      · cases h

/-- Both captures of `searchRange` are `float`-acceptable. -/
theorem searchRange_floatOk {l : List Char} {caps : RangeCaps}
    (h : searchRange l = some caps) :
    pyFloatCore caps.low = some (numValue caps.low) ∧
    pyFloatCore caps.high = some (numValue caps.high) := by
  induction l with
  | nil => cases h
  | cons c t ih =>
    unfold searchRange at h
    split at h
    · rename_i caps' hAt
      cases h
      exact matchRangeAt_floatOk hAt
    · exact ih h

/-- The capture of `matchSingleAt` is `float`-acceptable. -/
theorem matchSingleAt_floatOk {l : List Char} {caps : SingleCaps}
    (h : matchSingleAt l = some caps) :
    pyFloatCore caps.value = some (numValue caps.value) := by
  unfold matchSingleAt at h
  split at h
  · cases h
  · rename_i v r1 h1
    split at h
    cases h
    exact matchNumber_floatOk h1

/-- The capture of `searchSingle` is `float`-acceptable. -/
theorem searchSingle_floatOk {l : List Char} {caps : SingleCaps}
    (h : searchSingle l = some caps) :
    pyFloatCore caps.value = some (numValue caps.value) := by
  induction l with
  | nil => cases h
  | cons c t ih =>
    unfold searchSingle at h
    split at h
    · rename_i caps' hAt
      cases h
      exact matchSingleAt_floatOk hAt
    · exact ih h

/-- A capture of `matchMonthsDigits` is a nonempty digit string. -/
theorem matchMonthsDigits_digits {l ds : List Char}
    (h : matchMonthsDigits l = some ds) :
    ds.isEmpty = false ∧ ds.all Char.isDigit = true := by
  unfold matchMonthsDigits at h
  rcases l with _ | ⟨c1, rest⟩
  · cases h
  · dsimp only at h
    by_cases h1 : c1.isDigit
    · rw [if_pos h1] at h
      rcases rest with _ | ⟨c2, rest2⟩
      · cases h
      · dsimp only at h
        by_cases h2 : c2.isDigit
        · rw [if_pos h2] at h
          split at h
          · cases h
            exact ⟨rfl, by simp [h1, h2]⟩
          · cases h
        · rw [if_neg h2] at h
          split at h
          · cases h
            exact ⟨rfl, by simp [h1]⟩
          · cases h
    · rw [if_neg h1] at h
      cases h

/-- A capture of `searchMonths` is a nonempty digit string. -/
theorem searchMonths_digits {l ds : List Char} (h : searchMonths l = some ds) :
    ds.isEmpty = false ∧ ds.all Char.isDigit = true := by
  induction l with
  | nil => cases h
  | cons c t ih =>
    unfold searchMonths at h
    split at h
    · rename_i ds' hAt
      cases h
      unfold matchMonthsAt at hAt
      dsimp only at hAt
      by_cases hc : isMonthsPrefixChar c
      · rw [if_pos hc] at hAt
        exact matchMonthsDigits_digits hAt
      · rw [if_neg hc] at hAt
        exact matchMonthsDigits_digits hAt
    · exact ih h

/-- The exception-aware `_extract_salary_months` never raises and agrees
with the total embedding. -/
theorem extractSalaryMonthsE_ok (l : List Char) :
    extractSalaryMonthsE l = Except.ok (extractSalaryMonths l) := by
  unfold extractSalaryMonthsE extractSalaryMonths
  rcases h : searchMonths l with _ | ds
  · rfl
  · obtain ⟨hne, hdig⟩ := searchMonths_digits h
    have hok : pyIntE ds = Except.ok (digitsToNat ds) := by
      unfold pyIntE
      rw [hne, hdig]
      rfl
    dsimp only
    rw [hok]

/-- `pyFloatE` on a `matchNumber`-produced capture never raises a
`ValueError`: it returns the finite value, or `+inf` past the overflow
threshold. -/
theorem pyFloatE_ok {cap : List Char}
    (h : pyFloatCore cap = some (numValue cap)) :
    pyFloatE cap = Except.ok
      (if floatOverflows (numValue cap) then PyFloat.inf
       else PyFloat.fin (numValue cap)) := by
  unfold pyFloatE pyFloatOv
  rw [h]

/-- The exception-aware `parseCore` either raises (only possible through
`int(round(inf))` on an overflowed capture) or returns the value of the
total embedding. -/
theorem parseCoreE_cases (raw : List Char) :
    parseCoreE raw = Except.error () ∨ parseCoreE raw = Except.ok (parseCore raw) := by
  unfold parseCoreE parseCore
  cases hE : raw.isEmpty
  · cases hN : containsNegotiable raw
    · rcases hR : searchRange raw with _ | caps
      · rcases hS : searchSingle raw with _ | caps
        · right
          simp [hE, hN, hR, hS, extractSalaryMonthsE_ok]
        · have hv := searchSingle_floatOk hS
          cases hOv : floatOverflows (numValue caps.value)
          · right
            simp [hE, hN, hR, hS, extractSalaryMonthsE_ok, pyFloatE_ok hv, hOv,
              toMonthlyIntE, singleResult]
          · left
            simp [hE, hN, hR, hS, extractSalaryMonthsE_ok, pyFloatE_ok hv, hOv,
              toMonthlyIntE]
      · obtain ⟨hlo, hhi⟩ := searchRange_floatOk hR
        cases hOl : floatOverflows (numValue caps.low)
        · cases hOh : floatOverflows (numValue caps.high)
          · right
            simp [hE, hN, hR, extractSalaryMonthsE_ok, pyFloatE_ok hlo, pyFloatE_ok hhi,
              hOl, hOh, toMonthlyIntE, rangeResult]
          · left
            simp [hE, hN, hR, extractSalaryMonthsE_ok, pyFloatE_ok hlo, pyFloatE_ok hhi,
              hOl, hOh, toMonthlyIntE]
        · left
          simp [hE, hN, hR, extractSalaryMonthsE_ok, pyFloatE_ok hlo, pyFloatE_ok hhi,
            hOl, toMonthlyIntE]
    · right
      simp [hE, hN, extractSalaryMonthsE_ok]
  · right
    simp [hE]

/-- Wherever the exception-aware parser succeeds, its value is the one
of the total embedding. -/
theorem parse_salaryE_sound {s : Option String} {r : SalaryParseResult}
    (h : parse_salaryE s = Except.ok r) : parse_salary s = r := by
  unfold parse_salaryE at h
  unfold parse_salary
  rcases parseCoreE_cases (pystrip (s.getD "").data) with hc | hc
  · rw [hc] at h
    cases h
  · rw [hc] at h
    exact Except.ok.inj h

/-- C1 (code bug): the salary parser is NOT total.  On a 400-digit run the
single-value pattern matches the whole run, `float()` of the capture
overflows to `+inf` (the run exceeds the conversion threshold
`2^1024 - 2^970`), and `_to_monthly_int` reaches `int(round(inf))`, which
raises `OverflowError` — the exception-aware embedding returns
`Except.error` there.  Wherever it does succeed its value is the one of
the total embedding, so the error path is the only divergence. -/
theorem claim_C1 :
    parse_salaryE (some (String.mk (List.replicate 400 '9'))) = Except.error () ∧
    ∀ (s : Option String) (r : SalaryParseResult),
      parse_salaryE s = Except.ok r → parse_salary s = r := by
  refine ⟨by decide, ?_⟩
  intro s r h
  exact parse_salaryE_sound h

/-- Closed instance of C1's universally quantified conjunct at a concrete
input on which the parser succeeds. -/
theorem claim_C1_witness :
    parse_salary (some "8k-15k/月") =
      ⟨"8k-15k/月", some 8000, some 15000, some "monthly", some 12, true⟩ :=
  claim_C1.2 (some "8k-15k/月")
    ⟨"8k-15k/月", some 8000, some 15000, some "monthly", some 12, true⟩ (by decide)

/-- The `foldr` state of `pySplit` over `t` is the current token
(`takeWhile notWS t`) and the tokens of the rest. -/
theorem foldr_pySplitStep (t : List Char) :
    t.foldr pySplitStep ([], []) = (t.takeWhile notWS, pySplit (t.dropWhile notWS)) := by
  induction t with
  | nil => rfl
  | cons c t ih =>
    rw [List.foldr_cons, ih]
    by_cases hc : isWS c
    · have hn : ¬(notWS c = true) := by simp [notWS, hc]
      rw [List.takeWhile_cons_of_neg hn, List.dropWhile_cons_of_neg hn]
      simp only [pySplitStep, hc, if_true]
      refine congrArg (Prod.mk []) ?_
      unfold pySplit
      rw [List.foldr_cons, ih]
      simp only [pySplitStep, hc, if_true, List.isEmpty_nil]
      rfl
    · have hn : notWS c = true := by simp [notWS, hc]
      rw [List.takeWhile_cons_of_pos hn, List.dropWhile_cons_of_pos hn]
      simp only [pySplitStep, hc, Bool.false_eq_true, if_false]

/-- `pySplit` ignores a leading whitespace character. -/
theorem pySplit_cons_ws {c : Char} (t : List Char) (hc : isWS c = true) :
    pySplit (c :: t) = pySplit t := by
  unfold pySplit
  rw [List.foldr_cons]
  simp only [pySplitStep, hc, if_true, List.isEmpty_nil]

/-- `pySplit` at a token character: the token is the maximal non-whitespace
run and splitting continues after it. -/
theorem pySplit_cons_tok {c : Char} (t : List Char) (hc : isWS c = false) :
    pySplit (c :: t) = (c :: t.takeWhile notWS) :: pySplit (t.dropWhile notWS) := by
  unfold pySplit
  rw [List.foldr_cons, foldr_pySplitStep t]
  simp only [pySplitStep, hc, Bool.false_eq_true, if_false, List.isEmpty_cons]
  rfl

/-- `pySplit` of an all-whitespace list is empty. -/
theorem pySplit_allWS {w : List Char} (hw : ∀ c ∈ w, isWS c = true) :
    pySplit w = [] := by
  induction w with
  | nil => rfl
  | cons c t ih =>
    rw [pySplit_cons_ws t (hw c (List.mem_cons_self _ _))]
    exact ih (fun c hc => hw c (List.mem_cons_of_mem _ hc))

/-- `pySplit` ignores any all-whitespace prefix. -/
theorem pySplit_ws_prefix {w : List Char} (b : List Char)
    (hw : ∀ c ∈ w, isWS c = true) : pySplit (w ++ b) = pySplit b := by
  induction w with
  | nil => rfl
  | cons c t ih =>
    rw [List.cons_append, pySplit_cons_ws _ (hw c (List.mem_cons_self _ _))]
    exact ih (fun c hc => hw c (List.mem_cons_of_mem _ hc))

/-- `pySplit` ignores leading whitespace (`dropWhile` form). -/
theorem pySplit_dropWhile (l : List Char) : pySplit (l.dropWhile isWS) = pySplit l := by
  induction l with
  | nil => rfl
  | cons c t ih =>
    by_cases hc : isWS c
    · rw [List.dropWhile_cons_of_pos hc, ih, pySplit_cons_ws t hc]
    · rw [List.dropWhile_cons_of_neg hc]

/-- `takeWhile` distributes over an append whose first part all satisfies
the predicate. -/
theorem takeWhile_append_all {p : Char → Bool} {a : List Char} (b : List Char)
    (ha : ∀ c ∈ a, p c = true) : (a ++ b).takeWhile p = a ++ b.takeWhile p := by
  induction a with
  | nil => rfl
  | cons c t ih =>
    rw [List.cons_append, List.takeWhile_cons_of_pos (ha c (List.mem_cons_self _ _)),
      ih (fun c hc => ha c (List.mem_cons_of_mem _ hc)), List.cons_append]

/-- `dropWhile` skips over an append whose first part all satisfies the
predicate. -/
theorem dropWhile_append_all {p : Char → Bool} {a : List Char} (b : List Char)
    (ha : ∀ c ∈ a, p c = true) : (a ++ b).dropWhile p = b.dropWhile p := by
  induction a with
  | nil => rfl
  | cons c t ih =>
    rw [List.cons_append, List.dropWhile_cons_of_pos (ha c (List.mem_cons_self _ _)),
      ih (fun c hc => ha c (List.mem_cons_of_mem _ hc))]

/-- `takeWhile` stops inside the first part of an append when that part has
a failing element. -/
theorem takeWhile_append_of_mem {p : Char → Bool} {a : List Char} (b : List Char)
    {x : Char} (hx : x ∈ a) (hpx : p x = false) :
    (a ++ b).takeWhile p = a.takeWhile p := by
  induction a with
  | nil => cases hx
  | cons c t ih =>
    by_cases hc : p c
    · rcases List.mem_cons.mp hx with rfl | hx'
      · rw [hc] at hpx
        cases hpx
      · rw [List.cons_append, List.takeWhile_cons_of_pos hc,
          List.takeWhile_cons_of_pos hc, ih hx']
    · rw [List.cons_append, List.takeWhile_cons_of_neg hc, List.takeWhile_cons_of_neg hc]

/-- `dropWhile` stops inside the first part of an append when that part has
a failing element. -/
theorem dropWhile_append_of_mem {p : Char → Bool} {a : List Char} (b : List Char)
    {x : Char} (hx : x ∈ a) (hpx : p x = false) :
    (a ++ b).dropWhile p = a.dropWhile p ++ b := by
  induction a with
  | nil => cases hx
  | cons c t ih =>
    by_cases hc : p c
    · rcases List.mem_cons.mp hx with rfl | hx'
      · rw [hc] at hpx
        cases hpx
      · rw [List.cons_append, List.dropWhile_cons_of_pos hc,
          List.dropWhile_cons_of_pos hc, ih hx']
    · rw [List.cons_append, List.dropWhile_cons_of_neg hc, List.dropWhile_cons_of_neg hc,
        List.cons_append]

/-- `pySplit` ignores any all-whitespace suffix. -/
theorem pySplit_ws_suffix {w : List Char} (hw : ∀ c ∈ w, isWS c = true) :
    ∀ x : List Char, pySplit (x ++ w) = pySplit x := by
  have main : ∀ n (x : List Char), x.length ≤ n → pySplit (x ++ w) = pySplit x := by
    intro n
    induction n with
    | zero =>
      intro x hx
      have : x = [] := List.eq_nil_of_length_eq_zero (Nat.le_zero.mp hx)
      rw [this, List.nil_append]
      exact pySplit_allWS hw
    | succ n ih =>
      intro x hx
      rcases x with _ | ⟨c, t⟩
      · rw [List.nil_append]
        exact pySplit_allWS hw
      · rw [List.cons_append]
        by_cases hc : isWS c
        · rw [pySplit_cons_ws _ hc, pySplit_cons_ws _ hc]
          exact ih t (by simpa using Nat.lt_succ_iff.mp (Nat.lt_of_lt_of_le (by simp) hx))
        · rw [pySplit_cons_tok _ (by simpa using hc), pySplit_cons_tok _ (by simpa using hc)]
          by_cases ht : ∀ a ∈ t, notWS a = true
          · have hwn : ∀ c ∈ w, notWS c = false := fun c hc => by
              simp [notWS, hw c hc]
            have htw : w.takeWhile notWS = [] := by
              rcases w with _ | ⟨d, w'⟩
              · rfl
              · exact List.takeWhile_cons_of_neg (by
                  simp [hwn d (List.mem_cons_self _ _)])
            have hdw : w.dropWhile notWS = w := by
              rcases w with _ | ⟨d, w'⟩
              · rfl
              · exact List.dropWhile_cons_of_neg (by
                  simp [hwn d (List.mem_cons_self _ _)])
            rw [takeWhile_append_all w ht, dropWhile_append_all w ht, htw, hdw,
              List.append_nil, takeWhile_all ht, dropWhile_all ht, pySplit_allWS hw]
            rfl
          · push_neg at ht
            obtain ⟨x0, hx0, hpx0⟩ := ht
            have hpx0' : notWS x0 = false := by
              rcases hb : notWS x0 with _ | _
              · rfl
              · exact absurd hb hpx0
            rw [takeWhile_append_of_mem w hx0 hpx0', dropWhile_append_of_mem w hx0 hpx0']
            have hlen : (t.dropWhile notWS).length ≤ n := by
              have h1 : t.dropWhile notWS <:+ t := List.dropWhile_suffix notWS
              have h1l := h1.sublist.length_le
              have h2 : t.length ≤ n := by simpa using Nat.succ_le_succ_iff.mp hx
              omega
            rw [ih _ hlen]
  intro x
  exact main x.length x (le_refl _)

/-- `pySplit` is unchanged by stripping. -/
theorem pySplit_pystrip (l : List Char) : pySplit (pystrip l) = pySplit l := by
  unfold pystrip
  have hdecomp : l.dropWhile isWS =
      (((l.dropWhile isWS).reverse.dropWhile isWS).reverse ++
        ((l.dropWhile isWS).reverse.takeWhile isWS).reverse) := by
    have h1 := List.takeWhile_append_dropWhile isWS ((l.dropWhile isWS).reverse)
    have h2 := congrArg List.reverse h1
    rw [List.reverse_append, List.reverse_reverse] at h2
    exact h2.symm
  have hws : ∀ c ∈ ((l.dropWhile isWS).reverse.takeWhile isWS).reverse, isWS c = true :=
    fun c hc => all_takeWhile isWS _ c (List.mem_reverse.mp hc)
  calc pySplit (((l.dropWhile isWS).reverse.dropWhile isWS).reverse)
      = pySplit (((l.dropWhile isWS).reverse.dropWhile isWS).reverse ++
          ((l.dropWhile isWS).reverse.takeWhile isWS).reverse) :=
        (pySplit_ws_suffix hws _).symm
    _ = pySplit (l.dropWhile isWS) := by rw [← hdecomp]
    _ = pySplit l := pySplit_dropWhile l

/-- Splitting around a nonempty all-whitespace block separates the parts. -/
theorem pySplit_mid {w : List Char} (hw : ∀ c ∈ w, isWS c = true) (hne : w ≠ []) :
    ∀ a b : List Char, pySplit (a ++ (w ++ b)) = pySplit a ++ pySplit b := by
  have main : ∀ n a b, a.length ≤ n → pySplit (a ++ (w ++ b)) = pySplit a ++ pySplit b := by
    intro n
    induction n with
    | zero =>
      intro a b ha
      have : a = [] := List.eq_nil_of_length_eq_zero (Nat.le_zero.mp ha)
      subst this
      rw [List.nil_append, pySplit_ws_prefix b hw]
      rfl
    | succ n ih =>
      intro a b ha
      rcases a with _ | ⟨c, t⟩
      · rw [List.nil_append, pySplit_ws_prefix b hw]
        rfl
      · rw [List.cons_append]
        by_cases hc : isWS c
        · rw [pySplit_cons_ws _ hc, pySplit_cons_ws _ hc]
          exact ih t b (by simpa using Nat.succ_le_succ_iff.mp ha)
        · have hcf : isWS c = false := by
            rcases hb : isWS c with _ | _
            · rfl
            · exact absurd hb hc
          rw [pySplit_cons_tok _ hcf, pySplit_cons_tok _ hcf]
          rcases w with _ | ⟨wc, w'⟩
          · exact absurd rfl hne
          · have hwc : isWS wc = true := hw wc (List.mem_cons_self _ _)
            have hwcn : ¬(notWS wc = true) := by simp [notWS, hwc]
            have hw' : ∀ c ∈ w', isWS c = true :=
              fun c hc => hw c (List.mem_cons_of_mem _ hc)
            by_cases ht : ∀ x ∈ t, notWS x = true
            · rw [takeWhile_append_all _ ht, dropWhile_append_all _ ht,
                List.cons_append, List.takeWhile_cons_of_neg hwcn,
                List.dropWhile_cons_of_neg hwcn, List.append_nil,
                pySplit_cons_ws _ hwc, pySplit_ws_prefix b hw',
                takeWhile_all ht, dropWhile_all ht]
              rfl
            · push_neg at ht
              obtain ⟨x0, hx0, hpx0⟩ := ht
              have hpx0' : notWS x0 = false := by
                rcases hb : notWS x0 with _ | _
                · rfl
                · exact absurd hb hpx0
              rw [takeWhile_append_of_mem _ hx0 hpx0', dropWhile_append_of_mem _ hx0 hpx0']
              have hlen : (t.dropWhile notWS).length ≤ n := by
                have h1 : t.dropWhile notWS <:+ t := List.dropWhile_suffix notWS
                have h1l := h1.sublist.length_le
                have h2 : t.length ≤ n := by simpa using Nat.succ_le_succ_iff.mp ha
                omega
              rw [ih _ b hlen, List.cons_append]
  intro a b
  exact main a.length a b (le_refl _)

/-- `Char.toNat` is injective. -/
theorem char_toNat_inj {a b : Char} (h : a.toNat = b.toNat) : a = b := by
  have h2 := congrArg Char.ofNat h
  rwa [Char.ofNat_toNat, Char.ofNat_toNat] at h2

/-- `Char.ofNat` of a valid codepoint round-trips through `toNat`. -/
theorem char_toNat_ofNat {n : ℕ} (h : n.isValidChar) : (Char.ofNat n).toNat = n := by
  unfold Char.ofNat
  rw [dif_pos h]
  rfl

/-- The whitespace predicate depends only on the codepoint. -/
theorem isWS_toNat (c : Char) :
    isWS c = (decide (c.toNat = 32) || decide (c.toNat = 9) || decide (c.toNat = 10) ||
      decide (c.toNat = 13) || decide (c.toNat = 11) || decide (c.toNat = 12)) := by
  unfold isWS
  have e : ∀ (d : Char) (m : ℕ), d.toNat = m → decide (c = d) = decide (c.toNat = m) := by
    intro d m hd
    subst hd
    exact decide_eq_decide.mpr ⟨fun h => by rw [h], fun h => char_toNat_inj h⟩
  rw [e ' ' 32 rfl, e '\t' 9 rfl, e '\n' 10 rfl, e '\r' 13 rfl,
    e '\x0b' 11 rfl, e '\x0c' 12 rfl]

/-- ASCII lower-casing preserves the whitespace classification: whitespace
characters are not upper-case letters, and lowered letters are not
whitespace. -/
theorem isWS_cLower (c : Char) : isWS (cLower c) = isWS c := by
  unfold cLower Char.toLower
  dsimp only
  by_cases h : c.toNat ≥ 65 ∧ c.toNat ≤ 90
  · rw [if_pos h]
    have hval : (Char.ofNat (c.toNat + 32)).toNat = c.toNat + 32 :=
      char_toNat_ofNat (Or.inl (by omega))
    rw [isWS_toNat, isWS_toNat c, hval]
    have key : ∀ k : ℕ, 33 ≤ k → (decide (k = 32) || decide (k = 9) || decide (k = 10) ||
        decide (k = 13) || decide (k = 11) || decide (k = 12)) = false := by
      intro k hk
      simp only [Bool.or_eq_false_iff, decide_eq_false_iff_not]
      omega
    rw [key _ (by omega), key _ (by omega)]
  · rw [if_neg h]

/-- Lower-casing commutes with `dropWhile isWS`. -/
theorem map_cLower_dropWhile (l : List Char) :
    (l.map cLower).dropWhile isWS = (l.dropWhile isWS).map cLower := by
  induction l with
  | nil => rfl
  | cons c t ih =>
    rw [List.map_cons]
    by_cases hc : isWS c
    · rw [List.dropWhile_cons_of_pos (show isWS (cLower c) = true by rw [isWS_cLower, hc]),
        List.dropWhile_cons_of_pos hc, ih]
    · have hcl : ¬(isWS (cLower c) = true) := by
        rw [isWS_cLower]
        exact hc
      rw [List.dropWhile_cons_of_neg hcl, List.dropWhile_cons_of_neg hc, List.map_cons]

/-- Lower-casing commutes with stripping. -/
theorem lowerL_pystrip (l : List Char) : lowerL (pystrip l) = pystrip (lowerL l) := by
  unfold pystrip lowerL
  rw [List.map_reverse, ← map_cLower_dropWhile, List.map_reverse, ← map_cLower_dropWhile]

/-- Normal form of `_norm`: stripping first does not change the split. -/
theorem pyNorm_eq (s : String) :
    pyNorm (some s) = String.mk (joinSp (pySplit (lowerL s.data))) := by
  unfold pyNorm
  dsimp only
  rw [lowerL_pystrip, pySplit_pystrip]

/-- A list unchanged by `dropWhile` has a failing head. -/
theorem noDrop_cons {p : Char → Bool} {c : Char} {t : List Char}
    (h : (c :: t).dropWhile p = c :: t) : p c = false := by
  rcases hb : p c with _ | _
  · rfl
  · rw [List.dropWhile_cons_of_pos hb] at h
    have h1 := congrArg List.length h
    have h2p : t.dropWhile p <:+ t := List.dropWhile_suffix p
    have h2 := h2p.sublist.length_le
    simp only [List.length_cons] at h1
    omega

/-- A prefix of a list unchanged by `dropWhile` is itself unchanged. -/
theorem prefix_noDrop {p : Char → Bool} {m l : List Char} (hp : m <+: l)
    (hl : l.dropWhile p = l) : m.dropWhile p = m := by
  rcases m with _ | ⟨c, t⟩
  · rfl
  · rcases l with _ | ⟨d, u⟩
    · have := hp.length_le
      simp at this
    · have hcd : c = d := (List.cons_prefix_cons.mp hp).1
      subst hcd
      have hc : p c = false := noDrop_cons hl
      exact List.dropWhile_cons_of_neg (by rw [hc]; exact Bool.false_ne_true)

/-- `dropWhile` is idempotent. -/
theorem dropWhile_idem (p : Char → Bool) (l : List Char) :
    (l.dropWhile p).dropWhile p = l.dropWhile p := by
  rcases h : l.dropWhile p with _ | ⟨c, t⟩
  · rfl
  · have h2 := List.head?_dropWhile_not p l
    rw [h] at h2
    simp only [List.head?_cons] at h2
    exact List.dropWhile_cons_of_neg (by rw [h2]; exact Bool.false_ne_true)

/-- The strip output has no leading whitespace. -/
theorem pystrip_noLead (l : List Char) : (pystrip l).dropWhile isWS = pystrip l := by
  unfold pystrip
  refine prefix_noDrop ?_ (dropWhile_idem isWS l)
  have h1 : (l.dropWhile isWS).reverse.dropWhile isWS <:+ (l.dropWhile isWS).reverse :=
    List.dropWhile_suffix isWS
  have h2 : ((l.dropWhile isWS).reverse.dropWhile isWS).reverse <+:
      (l.dropWhile isWS).reverse.reverse := List.reverse_prefix.mpr h1
  rwa [List.reverse_reverse] at h2

/-- The strip output has no trailing whitespace. -/
theorem pystrip_noTrail (l : List Char) :
    (pystrip l).reverse.dropWhile isWS = (pystrip l).reverse := by
  unfold pystrip
  rw [List.reverse_reverse]
  exact dropWhile_idem isWS _

/-- `collapseRun` is the identity on whitespace-free lists. -/
theorem collapseRun_all_tok {l : List Char} (h : ∀ c ∈ l, isWS c = false) :
    collapseRun l = l := by
  induction l with
  | nil => rfl
  | cons c t ih =>
    have hc : isWS c = false := h c (List.mem_cons_self _ _)
    rcases t with _ | ⟨d, t'⟩
    · simp [collapseRun, hc]
    · have ht : collapseRun (d :: t') = d :: t' :=
        ih (fun x hx => h x (List.mem_cons_of_mem _ hx))
      simp [collapseRun, hc, ht]

/-- `collapseRun` copies a whitespace-free prefix. -/
theorem collapseRun_tok_prefix {a : List Char} (m : List Char)
    (ha : ∀ c ∈ a, isWS c = false) (hm : m ≠ []) :
    collapseRun (a ++ m) = a ++ collapseRun m := by
  induction a with
  | nil => rfl
  | cons c t ih =>
    have hc : isWS c = false := ha c (List.mem_cons_self _ _)
    rcases h : t ++ m with _ | ⟨d, rest⟩
    · exact absurd (List.append_eq_nil.mp h).2 hm
    · rw [List.cons_append, h]
      have hrec : collapseRun (t ++ m) = t ++ collapseRun m :=
        ih (fun x hx => ha x (List.mem_cons_of_mem _ hx))
      rw [h] at hrec
      simp [collapseRun, hc, hrec]

/-- `collapseRun` collapses a whitespace run before a non-whitespace
character into a single space. -/
theorem collapseRun_ws_run {w : List Char} (hw : ∀ c ∈ w, isWS c = true)
    (hne : w ≠ []) {e : Char} (m' : List Char) (he : isWS e = false) :
    collapseRun (w ++ e :: m') = ' ' :: collapseRun (e :: m') := by
  induction w with
  | nil => exact absurd rfl hne
  | cons wc w' ih =>
    have hwc : isWS wc = true := hw wc (List.mem_cons_self _ _)
    rcases w' with _ | ⟨wc2, w''⟩
    · simp [collapseRun, hwc, he]
    · have hwc2 : isWS wc2 = true := hw wc2 (List.mem_cons_of_mem _ (List.mem_cons_self _ _))
      have hrec := ih (fun x hx => hw x (List.mem_cons_of_mem _ hx)) (by simp)
      rw [List.cons_append] at hrec ⊢
      rw [List.cons_append]
      simp only [collapseRun, hwc, hwc2, Bool.and_self, if_true]
      rw [← List.cons_append]
      exact hrec

/-- `joinSp` of a cons with nonempty rest inserts one space. -/
theorem joinSp_cons_ne {w : List Char} {R : List (List Char)} (h : R ≠ []) :
    joinSp (w :: R) = w ++ ' ' :: joinSp R := by
  rcases R with _ | ⟨x, R'⟩
  · exact absurd rfl h
  · rfl

/-- On a list with neither leading nor trailing whitespace, splitting and
re-joining with single spaces is exactly collapsing whitespace runs. -/
theorem joinSp_pySplit (l : List Char) (hLead : l.dropWhile isWS = l)
    (hTrail : l.reverse.dropWhile isWS = l.reverse) :
    joinSp (pySplit l) = collapseRun l := by
  have main : ∀ n l, l.length ≤ n → l.dropWhile isWS = l →
      l.reverse.dropWhile isWS = l.reverse → joinSp (pySplit l) = collapseRun l := by
    intro n
    induction n with
    | zero =>
      intro l hn _ _
      have : l = [] := List.eq_nil_of_length_eq_zero (Nat.le_zero.mp hn)
      subst this
      rfl
    | succ n ih =>
      intro l hn hLead hTrail
      rcases l with _ | ⟨c, t⟩
      · rfl
      · have hc : isWS c = false := noDrop_cons hLead
        have htw : ∀ x ∈ t.takeWhile notWS, isWS x = false := by
          intro x hx
          have := all_takeWhile notWS t x hx
          simp [notWS] at this
          exact this
        rw [pySplit_cons_tok _ hc]
        rcases hdw : t.dropWhile notWS with _ | ⟨d, dws⟩
        · have htall : t.takeWhile notWS = t := by
            have := List.takeWhile_append_dropWhile notWS t
            rw [hdw, List.append_nil] at this
            exact this
          rw [htall]
          have hall : ∀ x ∈ c :: t, isWS x = false := by
            intro x hx
            rcases List.mem_cons.mp hx with rfl | hx'
            · exact hc
            · rw [← htall] at hx'
              exact htw x hx'
          rw [collapseRun_all_tok hall]
          rfl
        · have hd : isWS d = true := by
            have h2 := List.head?_dropWhile_not notWS t
            rw [hdw] at h2
            simp only [List.head?_cons] at h2
            simp [notWS] at h2
            exact h2
          have hts : t = t.takeWhile notWS ++ (d :: dws) := by
            have := List.takeWhile_append_dropWhile notWS t
            rw [hdw] at this
            exact this.symm
          -- the maximal whitespace run at the head of `d :: dws`
          have hwrun : ∀ x ∈ (d :: dws).takeWhile isWS, isWS x = true :=
            all_takeWhile isWS _
          have hwrun_ne : (d :: dws).takeWhile isWS ≠ [] := by
            rw [List.takeWhile_cons_of_pos hd]
            simp
          -- the remainder after that run
          have hsuffix : (d :: dws).dropWhile isWS <:+ (c :: t) := by
            refine List.IsSuffix.trans (List.dropWhile_suffix isWS) ?_
            refine List.IsSuffix.trans ?_ (List.suffix_cons c t)
            rw [hts]
            exact List.suffix_append _ _
          rcases hm' : (d :: dws).dropWhile isWS with _ | ⟨e, m''⟩
          · -- impossible: then the whole tail is whitespace, but the last
            -- character of the input is not whitespace
            exfalso
            have hallws : ∀ x ∈ d :: dws, isWS x = true :=
              fun x hx => List.dropWhile_eq_nil_iff.mp hm' x hx
            rcases hrev : (d :: dws).reverse with _ | ⟨e', r'⟩
            · have hlen := congrArg List.length hrev
              simp at hlen
            · have hshape : (c :: t).reverse = e' :: (r' ++ ((t.takeWhile notWS).reverse ++ [c])) := by
                have h0 : (c :: t) = (c :: t.takeWhile notWS) ++ (d :: dws) := by
                  rw [List.cons_append, ← hts]
                rw [h0, List.reverse_append, hrev, List.reverse_cons]
                simp [List.append_assoc]
              have hTrail2 := hTrail
              rw [hshape] at hTrail2
              have he' : isWS e' = false := noDrop_cons hTrail2
              have he'mem : e' ∈ d :: dws := by
                have : e' ∈ (d :: dws).reverse := by
                  rw [hrev]
                  exact List.mem_cons_self _ _
                exact List.mem_reverse.mp this
              rw [hallws e' he'mem] at he'
              cases he'
          · have he : isWS e = false := by
              have h2 := List.head?_dropWhile_not isWS (d :: dws)
              rw [hm'] at h2
              simpa using h2
            -- left side: one token, a space, then the rest of the split
            have hps : pySplit (d :: dws) = pySplit (e :: m'') := by
              rw [← hm']
              exact (pySplit_dropWhile (d :: dws)).symm
            have hps2 : pySplit (e :: m'') =
                (e :: m''.takeWhile notWS) :: pySplit (m''.dropWhile notWS) :=
              pySplit_cons_tok _ he
            rw [hps, joinSp_cons_ne (by rw [hps2]; simp)]
            -- induction hypothesis on the remainder
            have hm'suffix : (e :: m'') <:+ (c :: t) := by
              rw [← hm']
              exact hsuffix
            have hlen : (e :: m'').length ≤ n := by
              have h1 := hm'suffix.sublist.length_le
              simp only [List.length_cons] at h1 hn ⊢
              have h2 : (d :: dws).length ≤ t.length := by
                have : (d :: dws) <:+ t := by
                  rw [hts]
                  exact List.suffix_append _ _
                exact this.sublist.length_le
              have h3 := congrArg List.length hm'
              have h4s : (d :: dws).dropWhile isWS <:+ (d :: dws) := List.dropWhile_suffix isWS
              have h4 := h4s.sublist.length_le
              rw [hm'] at h4
              simp only [List.length_cons] at h2 h3 h4
              omega
            have hmLead : (e :: m'').dropWhile isWS = e :: m'' := by
              rw [← hm']
              exact dropWhile_idem isWS _
            have hmTrail : (e :: m'').reverse.dropWhile isWS = (e :: m'').reverse := by
              refine prefix_noDrop ?_ hTrail
              exact (List.reverse_prefix).mpr hm'suffix
            rw [ih _ hlen hmLead hmTrail]
            -- right side: copy the token, collapse the run
            have hcollapse : collapseRun (c :: t) =
                (c :: t.takeWhile notWS) ++ collapseRun (d :: dws) := by
              have : c :: t = (c :: t.takeWhile notWS) ++ (d :: dws) := by
                rw [List.cons_append, ← hts]
              rw [this]
              refine collapseRun_tok_prefix _ ?_ (by simp)
              intro x hx
              rcases List.mem_cons.mp hx with rfl | hx'
              · exact hc
              · exact htw x hx'
            have hdecomp : d :: dws = (d :: dws).takeWhile isWS ++ (e :: m'') := by
              rw [← hm']
              exact (List.takeWhile_append_dropWhile isWS (d :: dws)).symm
            rw [hcollapse, hdecomp, collapseRun_ws_run hwrun hwrun_ne m'' he]
  exact main l.length l (le_refl _) hLead hTrail

/-- The field normalization of `_norm` (null-default, strip, lower, split,
re-join with single spaces) equals the claim's description: trim,
lower-case, collapse whitespace runs. -/
theorem pyNorm_specNormalize (v : Option String) : pyNorm v = specNormalize (v.getD "") := by
  rcases v with _ | s
  · rfl
  · rw [Option.getD_some]
    unfold pyNorm specNormalize lowerL
    dsimp only
    refine congrArg String.mk ?_
    have hTrail : ((pystrip s.data).map cLower).reverse.dropWhile isWS =
        ((pystrip s.data).map cLower).reverse := by
      rw [← List.map_reverse, map_cLower_dropWhile, pystrip_noTrail]
    exact joinSp_pySplit _ (by rw [map_cLower_dropWhile, pystrip_noLead]) hTrail

/-- Lower-casing preserves all-whitespace lists. -/
theorem lowerL_allWS {l : List Char} (h : ∀ x ∈ l, isWS x = true) :
    ∀ x ∈ lowerL l, isWS x = true := by
  intro x hx
  obtain ⟨y, hy, rfl⟩ := List.mem_map.mp hx
  rw [isWS_cLower]
  exact h y hy

/-- Lower-casing distributes over append. -/
theorem lowerL_append (a b : List Char) : lowerL (a ++ b) = lowerL a ++ lowerL b :=
  List.map_append _ _ _

/-- C8: the identity-key builder returns the three fields each
null-defaulted to empty, trimmed, lower-cased and whitespace-collapsed
(`specNormalize`), joined by `"|"`; consequently the key is invariant under
leading/trailing whitespace, letter-case changes, and the length of
internal whitespace runs in any field, and key equality is reflexive and
symmetric. -/
theorem claim_C8 :
    (∀ v : Option String, pyNorm v = specNormalize (v.getD "")) ∧
    (∀ u c t : Option String,
      build_dedup_key u c t = pyNorm u ++ "|" ++ pyNorm c ++ "|" ++ pyNorm t) ∧
    (∀ s p q : String, (∀ x ∈ p.data, isWS x = true) → (∀ x ∈ q.data, isWS x = true) →
      pyNorm (some (p ++ s ++ q)) = pyNorm (some s)) ∧
    (∀ s s' : String, lowerL s.data = lowerL s'.data →
      pyNorm (some s) = pyNorm (some s')) ∧
    (∀ a b w w' : String, (∀ x ∈ w.data, isWS x = true) → w.data ≠ [] →
      (∀ x ∈ w'.data, isWS x = true) → w'.data ≠ [] →
      pyNorm (some (a ++ w ++ b)) = pyNorm (some (a ++ w' ++ b))) ∧
    (∀ u c t : Option String, build_dedup_key u c t = build_dedup_key u c t) ∧
    (∀ u c t u' c' t' : Option String,
      build_dedup_key u c t = build_dedup_key u' c' t' →
      build_dedup_key u' c' t' = build_dedup_key u c t) := by
  refine ⟨pyNorm_specNormalize, fun u c t => rfl, ?_, ?_, ?_, fun u c t => rfl,
    fun u c t u' c' t' h => h.symm⟩
  · intro s p q hp hq
    rw [pyNorm_eq, pyNorm_eq]
    refine congrArg String.mk (congrArg joinSp ?_)
    have hdata : (p ++ s ++ q).data = (p.data ++ s.data) ++ q.data := rfl
    rw [hdata, lowerL_append, lowerL_append,
      pySplit_ws_suffix (lowerL_allWS hq) _,
      pySplit_ws_prefix _ (lowerL_allWS hp)]
  · intro s s' h
    rw [pyNorm_eq, pyNorm_eq, h]
  · intro a b w w' hw hwne hw' hw'ne
    rw [pyNorm_eq, pyNorm_eq]
    refine congrArg String.mk (congrArg joinSp ?_)
    have hdata : ∀ x : String, (a ++ x ++ b).data = a.data ++ (x.data ++ b.data) := by
      intro x
      show (a.data ++ x.data) ++ b.data = a.data ++ (x.data ++ b.data)
      rw [List.append_assoc]
    rw [hdata w, hdata w', lowerL_append, lowerL_append, lowerL_append, lowerL_append,
      pySplit_mid (lowerL_allWS hw) (by simpa [lowerL] using hwne) _ _,
      pySplit_mid (lowerL_allWS hw') (by simpa [lowerL] using hw'ne) _ _]

/-- C8 witness: the invariance parts of the theorem applied at concrete
fields, discharging the whitespace and case hypotheses. -/
theorem claim_C8_witness :
    pyNorm (some (" " ++ "foo" ++ "  ")) = pyNorm (some "foo") ∧
    pyNorm (some "AbC") = pyNorm (some "abc") ∧
    pyNorm (some ("a" ++ " " ++ "b")) = pyNorm (some ("a" ++ "   " ++ "b")) ∧
    build_dedup_key (some "x") none none = build_dedup_key (some "x") none none :=
  ⟨claim_C8.2.2.1 "foo" " " "  " (by decide) (by decide),
    claim_C8.2.2.2.1 "AbC" "abc" (by decide),
    claim_C8.2.2.2.2.1 "a" "b" " " "   " (by decide) (by decide) (by decide) (by decide),
    claim_C8.2.2.2.2.2.2 (some "x") none none (some "x") none none rfl⟩

end OpenClaw
